import Mathlib

/-!
# Verification of the lispy interpreter (`lis.py`)

A shallow embedding of the interpreter in `src/lis.py`: the tokenizer,
the atom classifier, the recursive-descent reader, the environment chain
(`Env`), the builtin table, and the tree-walking evaluator `eval_expr`,
together with theorems settling the specification claims.

Modelling conventions:
* Python's single universal value/AST type is the inductive `Value`.
  Python `int` is `Int`, `float` is `Rat` (exact; every numeric literal in
  the claims is exactly representable, and every float operation exercised
  by the claims is exact in binary floating point, so the rational model
  agrees with the code on all inputs the claims touch).  Python `bool`,
  `None`, callables and strings (symbols) get their own constructors.
* Mutable `Env` objects shared by reference are modelled by a `Store`
  (list of frames addressed by index); an environment reference is an
  index into the store.  `dict` insertion/update semantics are modelled by
  `setVar` (update in place, append if new).
* General recursion (`eval_expr`, and the reader whose termination relies
  on `tokens.pop`) is modelled with a fuel parameter; `Err.fuel` marks
  fuel exhaustion and is a model artifact, never the code's behaviour.
* Exceptions are `Except Err`; since Python mutations performed before an
  exception persist, every evaluation step returns the store alongside
  the `Except` result.
* `int()` / `float()` parsing is modelled on the standard literal grammars
  (sign, digits, decimal point, exponent).  Python additionally accepts
  underscores in numeric literals and the strings inf/infinity/nan; no
  claim exercises those.
* `str()` of a float is modelled by `floatRepr`, an exact decimal
  rendering (possibly with more trailing zeros than CPython's shortest
  round-tripping repr); like CPython's repr it re-parses to the same
  value, which is the property the claims depend on.
* `display` is modelled as returning `None`; its text output is not
  modelled.  Object identity (Python `is`, backing `eq?`) is modelled
  structurally on atoms and as distinct-object (`false`) on composites;
  no claim exercises `eq?`.
-/

/-- Python values / expressions: the universal type of `lis.py` (`Symbol =
str`, numbers, lists; procedures and builtins are callables; `None` is the
result of `define`/`set!`/`display`; `bool` results from comparisons). -/
inductive Value where
  | int (n : Int)
  | float (q : Rat)
  | bool (b : Bool)
  | sym (s : String)
  | list (elems : List Value)
  | closure (params : Value) (body : Value) (envId : Nat)
  | builtin (name : String)
  | none

/-- Errors: the Python exceptions raised by `lis.py`.  `fuel` is a model
artifact (out of fuel), `stuck` marks model states unreachable from the
code (e.g. a dangling store index).  `badName` models binding a non-string
name (Python would accept any hashable dict key; no claim exercises it). -/
inductive Err where
  | fuel
  | stuck
  | eofStart
  | eofMid
  | unexpectedClose
  | unbound (name : String)
  | notCallable (head : Value) (tyName : String)
  | typeError
  | zeroDiv
  | valueError
  | beginEmpty
  | badName
  | indexError

/-- One `Env` object: its own dict plus the `outer` reference. -/
structure Frame where
  bindings : List (String × Value)
  outer : Option Nat

/-- The heap of `Env` objects; an environment reference is an index. -/
abbrev Store := List Frame

/-- `d[k] = v` on a Python dict: overwrite in place, append if absent. -/
def setVar : List (String × Value) → String → Value → List (String × Value)
  | [], k, v => [(k, v)]
  | (k', v') :: rest, k, v =>
    if k' = k then (k, v) :: rest else (k', v') :: setVar rest k v

/-- Build a dict from a pair sequence (later duplicates win), as
`dict.update` does. -/
def envFromPairs (ps : List (String × Value)) : List (String × Value) :=
  ps.foldl (fun bs kv => setVar bs kv.1 kv.2) []

/-- Update binding `k` in frame `i` of the store. -/
def storeSet (st : Store) (i : Nat) (k : String) (v : Value) : Store :=
  match st.get? i with
  | some fr => st.set i { fr with bindings := setVar fr.bindings k v }
  | Option.none => st

/-- `Env.find`, faithfully including the `elif self.outer:` test: an
*empty* outer `Env` is a falsy dict, so the search stops there and raises
`NameError` even if a further outer frame binds the name. -/
def findF : Nat → Store → Nat → String → Except Err Nat
  | 0, _, _, _ => .error .fuel
  | f + 1, st, i, var =>
    match st.get? i with
    | Option.none => .error .stuck
    | some fr =>
      if (fr.bindings.lookup var).isSome then .ok i
      else
        match fr.outer with
        | some oid =>
          match st.get? oid with
          | Option.none => .error .stuck
          | some ofr =>
            if ofr.bindings.isEmpty then .error (.unbound var)
            else findF f st oid var
        | Option.none => .error (.unbound var)

/-- Modelled from the spec: `lookup(env, name)` as §4.4 words it — search
the current frame; if absent, delegate to the outer frame; fail only when
no outer frame remains.  Used to contrast with the code's `Env.find`. -/
def specFind : Nat → Store → Nat → String → Option Nat
  | 0, _, _, _ => Option.none
  | f + 1, st, i, var =>
    match st.get? i with
    | Option.none => Option.none
    | some fr =>
      if (fr.bindings.lookup var).isSome then some i
      else
        match fr.outer with
        | some oid => specFind f st oid var
        | Option.none => Option.none

-- ## Tokenizer and atom classifier

/-- Whitespace characters recognised by Python's `str.split()`. -/
def pyIsSpace (c : Char) : Bool :=
  c = ' ' || c = '\t' || c = '\n' || c = '\x0d' || c = '\x0b' || c = '\x0c'

/-- `s.replace('(', ' ( ').replace(')', ' ) ')`, one character at a time. -/
def expandChar (c : Char) : List Char :=
  if c = '(' then [' ', '(', ' ']
  else if c = ')' then [' ', ')', ' ']
  else [c]

def expand (cs : List Char) : List Char := (cs.map expandChar).flatten

/-- `str.split()` worker: `acc` is the reversed current word. -/
def splitWsAux : List Char → List Char → List (List Char)
  | [], acc => if acc.isEmpty then [] else [acc.reverse]
  | c :: cs, acc =>
    if pyIsSpace c then
      (if acc.isEmpty then [] else [acc.reverse]) ++ splitWsAux cs []
    else splitWsAux cs (c :: acc)

def splitWs (cs : List Char) : List (List Char) := splitWsAux cs []

/-- `tokenize` at the character level. -/
def tokenizeL (cs : List Char) : List (List Char) := splitWs (expand cs)

/-- `tokenize(s)`: isolate parens, split on whitespace. -/
def tokenize (s : String) : List String :=
  (tokenizeL s.data).map (fun cs => String.mk cs)

def digToNat (c : Char) : Nat := c.toNat - 48

/-- Value of a decimal digit string (most significant first). -/
def digitsToNat (ds : List Char) : Nat :=
  ds.foldl (fun a c => 10 * a + digToNat c) 0

/-- The character for a decimal digit. -/
def digitToChar : Nat → Char
  | 0 => '0'
  | 1 => '1'
  | 2 => '2'
  | 3 => '3'
  | 4 => '4'
  | 5 => '5'
  | 6 => '6'
  | 7 => '7'
  | 8 => '8'
  | 9 => '9'
  | _ => '*'

/-- The digit characters of `n`, least significant first (`f` is fuel,
`n ≤ f` suffices). -/
def natDigitsAux : Nat → Nat → List Char
  | 0, _ => []
  | _, 0 => []
  | f + 1, n + 1 =>
    digitToChar ((n + 1) % 10) :: natDigitsAux f ((n + 1) / 10)

/-- Decimal rendering of a natural number, as `str` produces it. -/
def natToChars (n : Nat) : List Char :=
  if n = 0 then ['0'] else (natDigitsAux n n).reverse

/-- `str` of a Python int. -/
def intToChars (n : Int) : List Char :=
  if n < 0 then '-' :: natToChars n.natAbs else natToChars n.natAbs

/-- `int(token)`: optional sign then a nonempty digit string. -/
def pyInt (cs : List Char) : Option Int :=
  let digitsVal : List Char → Option Int := fun ds =>
    if ds ≠ [] ∧ ds.all Char.isDigit then some (digitsToNat ds) else Option.none
  match cs with
  | '+' :: rest => digitsVal rest
  | '-' :: rest => (digitsVal rest).map (fun n => -n)
  | _ => digitsVal cs

/-- Exponent suffix of a float literal: empty, or `e`/`E`, optional sign,
nonempty digits. -/
def pyFloatExp (cs : List Char) : Option Int :=
  match cs with
  | [] => some 0
  | e :: rest =>
    if e = 'e' ∨ e = 'E' then
      match rest with
      | '+' :: ds =>
        if ds ≠ [] ∧ ds.all Char.isDigit then some (digitsToNat ds) else Option.none
      | '-' :: ds =>
        if ds ≠ [] ∧ ds.all Char.isDigit then some (-(digitsToNat ds : Int)) else Option.none
      | ds =>
        if ds ≠ [] ∧ ds.all Char.isDigit then some (digitsToNat ds) else Option.none
    else Option.none

/-- Unsigned mantissa+exponent: `D+ [. D*] | D* . D+` with optional
exponent, valued exactly in `Rat`. -/
def pyFloatBody (cs : List Char) : Option Rat :=
  let intPart := cs.takeWhile Char.isDigit
  let r1 := cs.dropWhile Char.isDigit
  match r1 with
  | '.' :: r2 =>
    let fracPart := r2.takeWhile Char.isDigit
    let r3 := r2.dropWhile Char.isDigit
    if intPart = [] ∧ fracPart = [] then Option.none
    else
      (pyFloatExp r3).map (fun e =>
        ((digitsToNat intPart : Rat) + (digitsToNat fracPart : Rat) / 10 ^ fracPart.length)
          * (10 : Rat) ^ e)
  | _ =>
    if intPart = [] then Option.none
    else
      (pyFloatExp r1).map (fun e => (digitsToNat intPart : Rat) * (10 : Rat) ^ e)

/-- `float(token)` on the standard literal grammar. -/
def pyFloat (cs : List Char) : Option Rat :=
  match cs with
  | '+' :: rest => pyFloatBody rest
  | '-' :: rest => (pyFloatBody rest).map Neg.neg
  | _ => pyFloatBody cs

/-- `atom(token)`: try `int`, then `float`, else a `Symbol`. -/
def atom (t : String) : Value :=
  match pyInt t.data with
  | some n => .int n
  | Option.none =>
    match pyFloat t.data with
    | some q => .float q
    | Option.none => .sym t

-- ## Reader (`expr_from_tokens`), fuel-based

mutual
/-- `expr_from_tokens(tokens)`: pop one complete expression.  Returns the
remaining tokens instead of mutating. -/
def exprFromTokensF : Nat → List String → Except Err (Value × List String)
  | 0, _ => .error .fuel
  | f + 1, ts =>
    match ts with
    | [] => .error .eofStart
    | t :: ts' =>
      if t = "(" then
        match readListF f ts' with
        | .error e => .error e
        | .ok (vs, rest) => .ok (.list vs, rest)
      else if t = ")" then .error .unexpectedClose
      else .ok (atom t, ts')
  termination_by structural f => f

/-- The `while tokens and tokens[0] != ')'` loop of `expr_from_tokens`,
plus the trailing EOF check and discard of the final `)`. -/
def readListF : Nat → List String → Except Err (List Value × List String)
  | 0, _ => .error .fuel
  | f + 1, ts =>
    match ts with
    | [] => .error .eofMid
    | t :: ts' =>
      if t = ")" then .ok ([], ts')
      else
        match exprFromTokensF f (t :: ts') with
        | .error e => .error e
        | .ok (v, rest) =>
          match readListF f rest with
          | .error e => .error e
          | .ok (vs, rest') => .ok (v :: vs, rest')
  termination_by structural f => f
end

/-- Fuel `2·|ts| + 1` always suffices (proved below), so this wrapper is
the total reading function. -/
def exprFromTokens (ts : List String) : Except Err (Value × List String) :=
  exprFromTokensF (2 * ts.length + 1) ts

-- ## `to_string`

/-- Smallest `k ≤ fuel` (starting the search at `k`) with `d ∣ 10 ^ k`,
or the exhausted index when there is none. -/
def minTenExpAux : Nat → Nat → Nat → Nat
  | 0, _, k => k
  | f + 1, d, k => if 10 ^ k % d = 0 then k else minTenExpAux f d (k + 1)

/-- Smallest `k` with `d ∣ 10 ^ k` for a 10-smooth `d` (the denominator of
any parsed float); such a `k` is `< d`, so fuel `d` suffices. -/
def minTenExp (d : Nat) : Nat := minTenExpAux d d 0

/-- `str` of a float: exact decimal rendering of a 10-power-denominator
rational (`±intpart.fracpart`); re-parses to the same value, as CPython's
shortest repr does on everything the parser can produce. -/
def floatRepr (q : Rat) : List Char :=
  let k := max (minTenExp q.den) 1
  let m := q.num.natAbs * 10 ^ k / q.den
  let ds := natToChars m
  let pad := List.replicate (k + 1 - ds.length) '0' ++ ds
  let body := pad.take (pad.length - k) ++ '.' :: pad.drop (pad.length - k)
  if q.num < 0 then '-' :: body else body

mutual
/-- Character-level `to_string`.  Callables render as fixed placeholder
text (CPython includes an object address; unreachable from the claims). -/
def render : Value → List Char
  | .int n => intToChars n
  | .float q => floatRepr q
  | .bool b => if b then "True".data else "False".data
  | .sym s => s.data
  | .none => "None".data
  | .closure _ _ _ => "<function <lambda>>".data
  | .builtin n => ("<built-in " ++ n ++ ">").data
  | .list xs => '(' :: renderList xs ++ [')']
  termination_by structural v => v

/-- `' '.join(map(to_string, xs))`. -/
def renderList : List Value → List Char
  | [] => []
  | [x] => render x
  | x :: y :: rest => render x ++ ' ' :: renderList (y :: rest)
  termination_by structural xs => xs
end

def to_string (v : Value) : String := String.mk (render v)

-- ## Truthiness, numeric coercion, builtin operations

/-- Python `bool(x)`: `0`, `0.0`, `False`, `''`, `[]` and `None` are
falsy; everything else (callables included) is truthy. -/
def truthy : Value → Bool
  | .int n => n ≠ 0
  | .float q => q ≠ 0
  | .bool b => b
  | .sym s => s ≠ ""
  | .list xs => ¬xs.isEmpty
  | .closure _ _ _ => true
  | .builtin _ => true
  | .none => false

/-- `type(x).__name__`. -/
def pyTypeName : Value → String
  | .int _ => "int"
  | .float _ => "float"
  | .bool _ => "bool"
  | .sym _ => "str"
  | .list _ => "list"
  | .none => "NoneType"
  | .closure _ _ _ => "function"
  | .builtin _ => "builtin_function_or_method"

/-- An `int` in Python's arithmetic sense (`bool` is an `int` subclass). -/
def intLike : Value → Option Int
  | .int n => some n
  | .bool b => some (if b then 1 else 0)
  | _ => Option.none

/-- Any number, as an exact rational. -/
def toNum : Value → Option Rat
  | .int n => some (n : Rat)
  | .float q => some q
  | .bool b => some (if b then 1 else 0)
  | _ => Option.none

mutual
/-- Python `==` (`op.eq`): numbers compare across `int`/`float`/`bool`,
strings and lists structurally, mixed types are unequal.  Identity of
composite objects is not modelled: two structurally equal closures
compare equal here even when CPython would hold distinct objects. -/
def pyEq : Value → Value → Bool
  | .list xs, .list ys => pyEqList xs ys
  | .sym s, .sym t => s = t
  | .none, .none => true
  | .builtin m, .builtin n => m = n
  | .closure p b e, .closure p' b' e' => pyEq p p' && pyEq b b' && e = e'
  | a, b =>
    match toNum a, toNum b with
    | some x, some y => x = y
    | _, _ => false

def pyEqList : List Value → List Value → Bool
  | [], [] => true
  | x :: xs, y :: ys => pyEq x y && pyEqList xs ys
  | _, _ => false
end

mutual
/-- Python `<`: numbers cross-type, strings and lists lexicographically;
anything else raises `TypeError`. -/
def pyLt : Value → Value → Except Err Bool
  | .sym s, .sym t => .ok (decide (s < t))
  | .list xs, .list ys => pyLtList xs ys
  | a, b =>
    match toNum a, toNum b with
    | some x, some y => .ok (decide (x < y))
    | _, _ => .error .typeError

def pyLtList : List Value → List Value → Except Err Bool
  | [], [] => .ok false
  | [], _ :: _ => .ok true
  | _ :: _, [] => .ok false
  | x :: xs, y :: ys =>
    if pyEq x y then pyLtList xs ys
    else pyLt x y
end

/-- `repeat` of a Python sequence (`seq * n`); negative counts give the
empty sequence. -/
def seqRepeat (xs : List Char ⊕ List Value) (n : Int) : Value :=
  match xs with
  | .inl cs => .sym (String.mk (List.replicate n.toNat cs).flatten)
  | .inr vs => .list (List.replicate n.toNat vs).flatten

/-- Python binary `+` (`op.add`): ints, floats, string and list
concatenation. -/
def addVal (a b : Value) : Except Err Value :=
  match intLike a, intLike b with
  | some x, some y => .ok (.int (x + y))
  | _, _ =>
    match toNum a, toNum b with
    | some x, some y => .ok (.float (x + y))
    | _, _ =>
      match a, b with
      | .sym s, .sym t => .ok (.sym (s ++ t))
      | .list xs, .list ys => .ok (.list (xs ++ ys))
      | _, _ => .error .typeError

def subVal (a b : Value) : Except Err Value :=
  match intLike a, intLike b with
  | some x, some y => .ok (.int (x - y))
  | _, _ =>
    match toNum a, toNum b with
    | some x, some y => .ok (.float (x - y))
    | _, _ => .error .typeError

def negVal (a : Value) : Except Err Value :=
  match a with
  | .int n => .ok (.int (-n))
  | .bool b => .ok (.int (-(if b then 1 else 0 : Int)))
  | .float q => .ok (.float (-q))
  | _ => .error .typeError

/-- Python binary `*` (`op.mul`): numbers, or sequence repetition. -/
def mulVal (a b : Value) : Except Err Value :=
  match intLike a, intLike b with
  | some x, some y => .ok (.int (x * y))
  | _, _ =>
    match toNum a, toNum b with
    | some x, some y => .ok (.float (x * y))
    | _, _ =>
      match a, b with
      | .sym s, _ => (intLike b).elim (.error .typeError)
          (fun n => .ok (seqRepeat (.inl s.data) n))
      | _, .sym s => (intLike a).elim (.error .typeError)
          (fun n => .ok (seqRepeat (.inl s.data) n))
      | .list xs, _ => (intLike b).elim (.error .typeError)
          (fun n => .ok (seqRepeat (.inr xs) n))
      | _, .list xs => (intLike a).elim (.error .typeError)
          (fun n => .ok (seqRepeat (.inr xs) n))
      | _, _ => .error .typeError

/-- `op.truediv`: always a float; division by zero raises. -/
def divVal (a b : Value) : Except Err Value :=
  match toNum a, toNum b with
  | some x, some y => if y = 0 then .error .zeroDiv else .ok (.float (x / y))
  | _, _ => .error .typeError

/-- `reduce(op.add, args)` tail: fold the remaining args onto `a`. -/
def addFold (a : Value) : List Value → Except Err Value
  | [] => .ok a
  | b :: rest =>
    match addVal a b with
    | .error e => .error e
    | .ok c => addFold c rest

def mulFold (a : Value) : List Value → Except Err Value
  | [] => .ok a
  | b :: rest =>
    match mulVal a b with
    | .error e => .error e
    | .ok c => mulFold c rest

/-- Python `is` (`op.is_`): exact for the interned/singleton values the
interpreter deals in (`bool`, `None`, the one builtin per name, small
ints, identifier strings); composites are modelled as distinct objects. -/
def pyIs : Value → Value → Bool
  | .int a, .int b => a = b
  | .bool a, .bool b => a = b
  | .sym a, .sym b => a = b
  | .none, .none => true
  | .builtin a, .builtin b => a = b
  | _, _ => false

/-- The table from `get_builtins()`, each callable reduced to its
behaviour on an argument list. -/
def applyBuiltin (name : String) (args : List Value) : Except Err Value :=
  match name with
  | "not" =>
    match args with
    | [x] => .ok (.bool (!truthy x))
    | _ => .error .typeError
  | "+" =>
    match args with
    | [] => .error .typeError
    | a :: rest => addFold a rest
  | "-" =>
    match args with
    | [a] => negVal a
    | [a, b] => subVal a b
    | _ => .error .typeError
  | "*" =>
    match args with
    | a :: b :: rest =>
      match mulVal a b with
      | .error e => .error e
      | .ok c => mulFold c rest
    | _ => .error .typeError
  | "/" =>
    match args with
    | [a, b] => divVal a b
    | _ => .error .typeError
  | "=" =>
    match args with
    | [a, b] => .ok (.bool (pyEq a b))
    | _ => .error .typeError
  | "equal?" =>
    match args with
    | [a, b] => .ok (.bool (pyEq a b))
    | _ => .error .typeError
  | "eq?" =>
    match args with
    | [a, b] => .ok (.bool (pyIs a b))
    | _ => .error .typeError
  | ">" =>
    match args with
    | [a, b] => (pyLt b a).map Value.bool
    | _ => .error .typeError
  | "<" =>
    match args with
    | [a, b] => (pyLt a b).map Value.bool
    | _ => .error .typeError
  | ">=" =>
    match args with
    | [a, b] => (pyLt a b).map (fun r => Value.bool (!r))
    | _ => .error .typeError
  | "<=" =>
    match args with
    | [a, b] => (pyLt b a).map (fun r => Value.bool (!r))
    | _ => .error .typeError
  | "cons" =>
    match args with
    | [x, .list ys] => .ok (.list (x :: ys))
    | [_, _] => .error .typeError
    | _ => .error .typeError
  | "car" =>
    match args with
    | [.list (h :: _)] => .ok h
    | [.list []] => .error .indexError
    | [.sym s] =>
      match s.data with
      | c :: _ => .ok (.sym (String.mk [c]))
      | [] => .error .indexError
    | _ => .error .typeError
  | "cdr" =>
    match args with
    | [.list xs] => .ok (.list xs.tail)
    | [.sym s] => .ok (.sym (String.mk s.data.tail))
    | _ => .error .typeError
  | "length" =>
    match args with
    | [.list xs] => .ok (.int xs.length)
    | [.sym s] => .ok (.int s.length)
    | _ => .error .typeError
  | "append" =>
    match args with
    | [a, b] => addVal a b
    | _ => .error .typeError
  | "list" => .ok (.list args)
  | "list?" =>
    match args with
    | [.list _] => .ok (.bool true)
    | [_] => .ok (.bool false)
    | _ => .error .typeError
  | "null?" =>
    match args with
    | [x] => .ok (.bool (pyEq x (.list [])))
    | _ => .error .typeError
  | "symbol?" =>
    match args with
    | [.sym _] => .ok (.bool true)
    | [_] => .ok (.bool false)
    | _ => .error .typeError
  | "display" => .ok .none
  | _ => .error .stuck

/-- The `get_builtins()` dict, in source order. -/
def get_builtins : List (String × Value) :=
  [("not", .builtin "not"),
   ("+", .builtin "+"), ("-", .builtin "-"),
   ("*", .builtin "*"), ("/", .builtin "/"),
   ("=", .builtin "="), ("equal?", .builtin "equal?"),
   ("eq?", .builtin "eq?"),
   (">", .builtin ">"), ("<", .builtin "<"),
   (">=", .builtin ">="), ("<=", .builtin "<="),
   ("cons", .builtin "cons"), ("car", .builtin "car"),
   ("cdr", .builtin "cdr"),
   ("length", .builtin "length"), ("append", .builtin "append"),
   ("list", .builtin "list"),
   ("list?", .builtin "list?"), ("null?", .builtin "null?"),
   ("symbol?", .builtin "symbol?"),
   ("display", .builtin "display")]

/-- `global_env = Env(get_builtins())`: frame 0 of the initial store. -/
def globalStore : Store := [⟨get_builtins, Option.none⟩]

-- ## The evaluator

/-- `Env(zip(args, params), env)`'s bindings: `zip` truncates at the
shorter sequence, and zipping a `Symbol` (a string) iterates its
*characters*.  Binding a non-string name is `badName` (see header). -/
def bindPairsAux : List (Value × Value) → List (String × Value) →
    Except Err (List (String × Value))
  | [], acc => .ok acc
  | (k, v) :: rest, acc =>
    match k with
    | .sym s => bindPairsAux rest (setVar acc s v)
    | _ => .error .badName

def zipBind (ps : Value) (args : List Value) :
    Except Err (List (String × Value)) :=
  match ps with
  | .list pl => bindPairsAux (pl.zip args) []
  | .sym s =>
    .ok (envFromPairs ((s.data.map (fun c => String.mk [c])).zip args))
  | _ => .error .typeError

mutual
/-- `eval_expr(expr, env)`. -/
def evalE : Nat → Store → Nat → Value → Store × Except Err Value
  | 0, st, _, _ => (st, .error .fuel)
  | f + 1, st, env, expr =>
    match expr with
    | .sym s =>
      match findF (st.length + 1) st env s with
      | .error e => (st, .error e)
      | .ok i =>
        match st.get? i with
        | Option.none => (st, .error .stuck)
        | some fr =>
          match fr.bindings.lookup s with
          | some v => (st, .ok v)
          | Option.none => (st, .error (.unbound s))
    | .list [] => (st, .error .indexError)
    | .list (h :: t) =>
      match h with
      | .sym s =>
        if s = "quote" then
          match t with
          | [v] => (st, .ok v)
          | _ => (st, .error .valueError)
        else if s = "if" then
          match t with
          | [p, c, a] =>
            match evalE f st env p with
            | (st', .error e) => (st', .error e)
            | (st', .ok pv) => evalE f st' env (if truthy pv then c else a)
          | _ => (st, .error .valueError)
        else if s = "set!" then
          match t with
          | [nameE, valE] =>
            match evalE f st env valE with
            | (st', .error e) => (st', .error e)
            | (st', .ok v) =>
              match nameE with
              | .sym n =>
                match findF (st'.length + 1) st' env n with
                | .error e => (st', .error e)
                | .ok i => (storeSet st' i n v, .ok .none)
              | _ => (st', .error .badName)
          | _ => (st, .error .valueError)
        else if s = "define" then
          match t with
          | [nameE, valE] =>
            match evalE f st env valE with
            | (st', .error e) => (st', .error e)
            | (st', .ok v) =>
              match nameE with
              | .sym n => (storeSet st' env n v, .ok .none)
              | _ => (st', .error .badName)
          | _ => (st, .error .valueError)
        else if s = "lambda" then
          match t with
          | [ps, body] => (st, .ok (.closure ps body env))
          | _ => (st, .error .valueError)
        else if s = "begin" then
          match t with
          | [] => (st, .error .beginEmpty)
          | e0 :: rest => evalSeq f st env e0 rest
        else evalApply f st env (.sym s) t
      | _ => evalApply f st env h t
    | v => (st, .ok v)
  termination_by structural f => f

/-- The `begin` loop: evaluate in order, return the last value. -/
def evalSeq : Nat → Store → Nat → Value → List Value →
    Store × Except Err Value
  | 0, st, _, _, _ => (st, .error .fuel)
  | f + 1, st, env, e, rest =>
    match evalE f st env e with
    | (st', .error er) => (st', .error er)
    | (st', .ok v) =>
      match rest with
      | [] => (st', .ok v)
      | e2 :: rest2 => evalSeq f st' env e2 rest2
  termination_by structural f => f

/-- Procedure application: evaluate every element left-to-right, pop the
first value as the callable, invoke it on the rest.  `origHead` is the
unevaluated operator expression, kept for the `NotCallable` message. -/
def evalApply : Nat → Store → Nat → Value → List Value →
    Store × Except Err Value
  | 0, st, _, _, _ => (st, .error .fuel)
  | f + 1, st, env, origHead, t =>
    match evalList f st env (origHead :: t) with
    | (st', .error e) => (st', .error e)
    | (st', .ok vals) =>
      match vals with
      | [] => (st', .error .stuck)
      | proc :: args => applyCall f st' origHead proc args
  termination_by structural f => f

/-- Call an evaluated procedure value on evaluated arguments; non-callable
values raise `NotCallable` with the original head and the runtime type. -/
def applyCall : Nat → Store → Value → Value → List Value →
    Store × Except Err Value
  | 0, st, _, _, _ => (st, .error .fuel)
  | f + 1, st, origHead, proc, args =>
    match proc with
    | .closure ps body cenv =>
      match zipBind ps args with
      | .error e => (st, .error e)
      | .ok bs => evalE f (st ++ [⟨bs, some cenv⟩]) st.length body
    | .builtin name => (st, applyBuiltin name args)
    | _ => (st, .error (.notCallable origHead (pyTypeName proc)))
  termination_by structural f => f

/-- The list comprehension `[eval_expr(x, env) for x in expr]`:
left-to-right, store threaded, first error aborts. -/
def evalList : Nat → Store → Nat → List Value →
    Store × Except Err (List Value)
  | 0, st, _, _ => (st, .error .fuel)
  | _ + 1, st, _, [] => (st, .ok [])
  | f + 1, st, env, e :: es =>
    match evalE f st env e with
    | (st', .error er) => (st', .error er)
    | (st', .ok v) =>
      match evalList f st' env es with
      | (st'', .error er) => (st'', .error er)
      | (st'', .ok vs) => (st'', .ok (v :: vs))
  termination_by structural f => f
end

/-- `eval_string`: parse one expression at a time and evaluate it against
the store, returning the last value (parsing is interleaved with
evaluation, as with the generator `parse`). -/
def evalStringLoop : Nat → Store → Nat → Value → List String →
    Store × Except Err Value
  | 0, st, _, _, _ => (st, .error .fuel)
  | f + 1, st, env, last, toks =>
    match toks with
    | [] => (st, .ok last)
    | _ :: _ =>
      match exprFromTokens toks with
      | .error e => (st, .error e)
      | .ok (e, rest) =>
        match evalE f st env e with
        | (st', .error er) => (st', .error er)
        | (st', .ok v) => evalStringLoop f st' env v rest

/-- `eval_string(s)` against a fresh `global_env`, also returning the
final store. -/
def evalString (f : Nat) (s : String) : Store × Except Err Value :=
  evalStringLoop f globalStore 0 .none (tokenize s)

/-- Binding of `name` in the global frame of a store (used to observe
side effects). -/
def getGlobal (st : Store) (name : String) : Option Value :=
  match st with
  | fr :: _ => fr.bindings.lookup name
  | [] => Option.none

-- ## Concrete stores for the environment-chain claims

/-- A three-frame chain: the outermost frame binds `a`, the middle frame
is *empty* (as a zero-parameter call frame is), the innermost binds `b`. -/
def chainStoreA : Store :=
  [⟨[("a", .int 1)], Option.none⟩, ⟨[], some 0⟩, ⟨[("b", .int 2)], some 1⟩]

/-- Same shape, for the `set!` claim: the outermost frame owns `n`. -/
def chainStoreN : Store :=
  [⟨[("n", .int 1)], Option.none⟩, ⟨[], some 0⟩, ⟨[("m", .int 2)], some 1⟩]

-- ## C10

/-- C10: at the primitive interface, `cdr` (`x[1:]`) is total on lists and
maps the empty list to the empty list, while `car` (`x[0]`) fails with
`IndexError` on the empty list and returns the head otherwise; the same is
observable through evaluation. -/
theorem c10_car_cdr_empty_list :
    (∀ xs : List Value, applyBuiltin "cdr" [.list xs] = .ok (.list xs.tail))
    ∧ applyBuiltin "cdr" [.list []] = .ok (.list [])
    ∧ applyBuiltin "car" [.list []] = .error .indexError
    ∧ (∀ (x : Value) (xs : List Value),
        applyBuiltin "car" [.list (x :: xs)] = .ok x)
    ∧ (evalString 64 "(cdr (quote ()))").2 = .ok (.list [])
    ∧ (evalString 64 "(car (quote ()))").2 = .error .indexError := by
  refine ⟨fun xs => ?_, ?_, ?_, fun x xs => ?_, ?_, ?_⟩ <;> rfl

-- ## C1 — the "variadic" lambda form

/-- C1 counterexample: `((lambda x x) 1 2 3)` evaluates to `1`, not to the
argument list `(1 2 3)` the claim requires — `Env(zip(args, params), env)`
zips the *characters* of the parameter Symbol with the arguments, so a
one-character name is bound to the first argument only. -/
theorem c1_variadic_counterexample :
    (evalString 64 "((lambda x x) 1 2 3)").2 = .ok (.int 1)
    ∧ Value.int 1 ≠ Value.list [.int 1, .int 2, .int 3] := by
  refine ⟨?_, ?_⟩
  · rfl
  · intro h
    exact Value.noConfusion h

/-- C1 amended: when the parameter position is a single Symbol, invocation
binds the *characters* of that Symbol pairwise with the arguments
(`zip` truncates at the shorter side); in particular a one-character
parameter name is bound to the first argument, not to the argument list.
The repository's own tests pin this behaviour (`(lambda n ...)` factorial
with `n` bound to the argument itself). -/
theorem c1_variadic_amended :
    (∀ (s : String) (args : List Value),
      zipBind (.sym s) args =
        .ok (envFromPairs ((s.data.map (fun c => String.mk [c])).zip args)))
    ∧ (∀ (c : Char) (a : Value) (rest : List Value),
        zipBind (.sym (String.mk [c])) (a :: rest) = .ok [(String.mk [c], a)])
    ∧ (evalString 64 "((lambda x x) 1 2 3)").2 = .ok (.int 1) := by
  refine ⟨fun s args => ?_, fun c a rest => ?_, ?_⟩ <;> rfl

-- ## C2 — lookup along the environment chain

/-- C2: the claim is right and `Env.find` is wrong.  In the chain
`{b:2} → {} → {a:1}` the name `a` is bound (the spec-modelled `specFind`
finds it in frame 0), but the code's `find` raises `UnboundVariable`
because `elif self.outer:` is falsy on an empty intermediate frame.
End to end: `((lambda () ((lambda (y) (+ y 1)) 5)))` raises
`Unbound variable "+"` although `+` is bound in the global frame — the
zero-parameter call frame in the middle of the chain severs the search. -/
theorem c2_find_stops_at_empty_frame :
    findF 4 chainStoreA 2 "a" = .error (.unbound "a")
    ∧ specFind 4 chainStoreA 2 "a" = some 0
    ∧ (chainStoreA.get? 0).map Frame.bindings = some [("a", .int 1)]
    ∧ (evalString 64 "((lambda () ((lambda (y) (+ y 1)) 5)))").2
        = .error (.unbound "+")
    ∧ getGlobal globalStore "+" = some (.builtin "+") := by
  refine ⟨?_, ?_, ?_, ?_, ?_⟩ <;> rfl

-- ## C3 — truthiness in `if`

/-- C3 counterexample: the predicate `(quote ())` is a List, which the
claim says must be truthy and select the consequent `123`; the code takes
the alternate `456`, because Python's `bool` also treats the empty list
(and `0.0`, `''`, `False`, `None`) as false. -/
theorem c3_truthiness_counterexample :
    (evalString 64 "(if (quote ()) 123 456)").2 = .ok (.int 456)
    ∧ Value.int 456 ≠ Value.int 123 := by
  refine ⟨?_, ?_⟩
  · rfl
  · intro h
    injection h with h2
    omega

/-- C3 amended: `if` treats a value as false exactly when Python's `bool`
does — the falsy values are `0`, `0.0`, `False`, the empty Symbol, the
empty List and `None`; every other value selects the consequent. -/
theorem c3_truthiness_amended :
    (∀ v : Value, truthy v = false ↔
      (v = .int 0 ∨ v = .float 0 ∨ v = .bool false ∨ v = .sym ""
        ∨ v = .list [] ∨ v = .none))
    ∧ (∀ (f : Nat) (st st' : Store) (env : Nat) (p c a pv : Value),
        evalE f st env p = (st', .ok pv) →
        evalE (f + 1) st env (.list [.sym "if", p, c, a])
          = evalE f st' env (if truthy pv then c else a)) := by
  constructor
  · intro v
    cases v <;> simp [truthy]
  · intro f st st' env p c a pv h
    have hstep : evalE (f + 1) st env (.list [.sym "if", p, c, a])
        = (match evalE f st env p with
           | (st2, .error e) => (st2, .error e)
           | (st2, .ok pv2) => evalE f st2 env (if truthy pv2 then c else a)) := rfl
    rw [hstep, h]

/-- Witness for the amended C3, at the spec's own example `(if 0 123 456)`. -/
theorem c3_truthiness_amended_witness :
    evalE 2 globalStore 0 (.list [.sym "if", .int 0, .int 123, .int 456])
      = evalE 1 globalStore 0 (.int 456) :=
  c3_truthiness_amended.2 1 globalStore globalStore 0 (.int 0) (.int 123)
    (.int 456) (.int 0) rfl

-- ## C4 — `/` is binary true division

/-- C4: `/` is `op.truediv`: exactly two arguments, true division (the
result is a float, `(/ 7 2)` is `3.5`), and the spec's nested example
yields the float value 120 (`120.0`, numerically equal to `120`). -/
theorem c4_true_division :
    (evalString 64 "(/ 360 (/ (/ 60 2) 10))").2 = .ok (.float 120)
    ∧ (evalString 64 "(/ 7 2)").2 = .ok (.float (7 / 2))
    ∧ (∀ args : List Value, args.length ≠ 2 →
        applyBuiltin "/" args = .error .typeError)
    ∧ (∀ a b : Value, applyBuiltin "/" [a, b] = divVal a b) := by
  refine ⟨?_, ?_, ?_, fun a b => rfl⟩
  · with_unfolding_all rfl
  · with_unfolding_all rfl
  · intro args h
    match args with
    | [] => rfl
    | [_] => rfl
    | [_, _] => exact absurd rfl h
    | _ :: _ :: _ :: _ => rfl

/-- Witness for C4's arity clause: one argument is rejected. -/
theorem c4_true_division_witness :
    applyBuiltin "/" [.int 360] = .error .typeError :=
  c4_true_division.2.2.1 [.int 360] (by simp)

-- ## C5 — `set!` mutates the owning frame

/-- C5: the claim is right and the code is wrong, by the same `Env.find`
slip as C2.  In the chain `{m:2} → {} → {n:1}` the name `n` *is* owned by
a reachable frame (frame 0, found by the spec-modelled `specFind`), yet
`(set! n 7)` raises `UnboundVariable` and leaves every frame unchanged.
When no empty frame intervenes the claimed contract holds: the inner-frame
`set!` overwrites the global owner and leaves the inner frame unchanged,
and `set!` on a nowhere-bound name raises `UnboundVariable`. -/
theorem c5_set_stops_at_empty_frame :
    evalE 8 chainStoreN 2 (.list [.sym "set!", .sym "n", .int 7])
      = (chainStoreN, .error (.unbound "n"))
    ∧ specFind 4 chainStoreN 2 "n" = some 0
    ∧ (evalString 64 "(define a 1) ((lambda (b) (set! a 99)) 0) a").2
        = .ok (.int 99)
    ∧ getGlobal (evalString 64 "(define a 1) ((lambda (b) (set! a 99)) 0) a").1 "a"
        = some (.int 99)
    ∧ (evalString 64 "(define a 1) ((lambda (b) (set! a 99)) 0) a").1.get? 1
        = some ⟨[("b", .int 0)], some 0⟩
    ∧ (evalString 64 "(set! nowhere 3)").2 = .error (.unbound "nowhere") := by
  refine ⟨?_, ?_, ?_, ?_, ?_, ?_⟩ <;> rfl

-- ## C6 — closures capture the defining environment by reference

/-- C6: evaluating a `lambda` returns a Procedure holding the *reference*
(store index) of the defining environment — the store is untouched, no
frame is copied — so a later `set!` in the defining scope is visible to
later invocations: after `(set! a 2)` the closure `(lambda (y) (+ y a))`
applied to `10` yields `12`; the spec's `(f 10)` example yields `14`. -/
theorem c6_closure_captures_env_by_reference :
    (∀ (f : Nat) (st : Store) (env : Nat) (ps body : Value),
      evalE (f + 1) st env (.list [.sym "lambda", ps, body])
        = (st, .ok (.closure ps body env)))
    ∧ (evalString 64
        "(define a 1) (define f (lambda (y) (+ y a))) (set! a 2) (f 10)").2
        = .ok (.int 12)
    ∧ (evalString 64 "(define f (lambda (x) (+ x 4))) (f 10)").2
        = .ok (.int 14) := by
  refine ⟨fun f st env ps body => rfl, ?_, ?_⟩ <;> rfl

-- ## C7 — procedure application

/-- The six special-form keywords. -/
def isSpecialName (s : String) : Prop :=
  s = "quote" ∨ s = "if" ∨ s = "set!" ∨ s = "define" ∨ s = "lambda" ∨ s = "begin"

/-- C7: a List whose head is not a special-form keyword is an application:
every element (operator included) is evaluated left-to-right by
`evalList`; the first value is invoked on the rest; a non-callable first
value raises `NotCallable` carrying the *original unevaluated head* and
the value's runtime type name — after the arguments were already
evaluated, as the `(1 (set! z 5))` example shows: the error is raised and
`z` has become `5`. -/
theorem c7_application :
    (∀ (f : Nat) (st : Store) (env : Nat) (s : String) (t : List Value),
      ¬isSpecialName s →
      evalE (f + 1) st env (.list (.sym s :: t)) = evalApply f st env (.sym s) t)
    ∧ (∀ (f : Nat) (st : Store) (env : Nat) (h : Value) (t : List Value),
        (∀ s, h ≠ .sym s) →
        evalE (f + 1) st env (.list (h :: t)) = evalApply f st env h t)
    ∧ (∀ (f : Nat) (st : Store) (env : Nat) (oh : Value) (t : List Value)
        (st' : Store) (e : Err),
        evalList f st env (oh :: t) = (st', .error e) →
        evalApply (f + 1) st env oh t = (st', .error e))
    ∧ (∀ (f : Nat) (st : Store) (env : Nat) (oh : Value) (t : List Value)
        (st' : Store) (pv : Value) (avs : List Value),
        evalList f st env (oh :: t) = (st', .ok (pv :: avs)) →
        evalApply (f + 1) st env oh t = applyCall f st' oh pv avs)
    ∧ (∀ (f : Nat) (st : Store) (oh pv : Value) (avs : List Value),
        (∀ ps b e, pv ≠ .closure ps b e) → (∀ n, pv ≠ .builtin n) →
        applyCall (f + 1) st oh pv avs
          = (st, .error (.notCallable oh (pyTypeName pv))))
    ∧ (evalString 64 "(define z 1) (1 (set! z 5))").2
        = .error (.notCallable (.int 1) "int")
    ∧ getGlobal (evalString 64 "(define z 1) (1 (set! z 5))").1 "z"
        = some (.int 5) := by
  refine ⟨?_, ?_, ?_, ?_, ?_, ?_, ?_⟩
  · intro f st env s t hs
    have h1 : s ≠ "quote" := fun e => hs (Or.inl e)
    have h2 : s ≠ "if" := fun e => hs (Or.inr (Or.inl e))
    have h3 : s ≠ "set!" := fun e => hs (Or.inr (Or.inr (Or.inl e)))
    have h4 : s ≠ "define" := fun e => hs (Or.inr (Or.inr (Or.inr (Or.inl e))))
    have h5 : s ≠ "lambda" :=
      fun e => hs (Or.inr (Or.inr (Or.inr (Or.inr (Or.inl e)))))
    have h6 : s ≠ "begin" :=
      fun e => hs (Or.inr (Or.inr (Or.inr (Or.inr (Or.inr e)))))
    simp [evalE, h1, h2, h3, h4, h5, h6]
  · intro f st env h t hns
    cases h with
    | sym s => exact absurd rfl (hns s)
    | int n => rfl
    | float q => rfl
    | bool b => rfl
    | list xs => rfl
    | closure p b e => rfl
    | builtin n => rfl
    | none => rfl
  · intro f st env oh t st' e h
    have hstep : evalApply (f + 1) st env oh t
        = (match evalList f st env (oh :: t) with
           | (st2, .error e2) => (st2, .error e2)
           | (st2, .ok vals) =>
             match vals with
             | [] => (st2, .error .stuck)
             | proc :: args => applyCall f st2 oh proc args) := rfl
    rw [hstep, h]
  · intro f st env oh t st' pv avs h
    have hstep : evalApply (f + 1) st env oh t
        = (match evalList f st env (oh :: t) with
           | (st2, .error e2) => (st2, .error e2)
           | (st2, .ok vals) =>
             match vals with
             | [] => (st2, .error .stuck)
             | proc :: args => applyCall f st2 oh proc args) := rfl
    rw [hstep, h]
  · intro f st oh pv avs hc hb
    cases pv with
    | closure p b e => exact absurd rfl (hc p b e)
    | builtin n => exact absurd rfl (hb n)
    | int n => rfl
    | float q => rfl
    | bool b => rfl
    | sym s => rfl
    | list xs => rfl
    | none => rfl
  · rfl
  · rfl

/-- Witness for C7 at concrete inputs: a non-keyword head dispatches to
application, and a non-callable value raises `NotCallable` with its type. -/
theorem c7_application_witness :
    evalE 6 globalStore 0 (.list [.sym "1x", .int 2])
      = evalApply 5 globalStore 0 (.sym "1x") [.int 2]
    ∧ applyCall 3 globalStore (.int 1) (.int 1) []
      = (globalStore, .error (.notCallable (.int 1) "int")) :=
  ⟨c7_application.1 5 globalStore 0 "1x" [.int 2]
      (by intro h; rcases h with h | h | h | h | h | h <;> simp at h),
   c7_application.2.2.2.2.1 2 globalStore (.int 1) (.int 1) []
      (fun ps b e h => Value.noConfusion h) (fun n h => Value.noConfusion h)⟩

-- ## C8 — the reader's error taxonomy

theorem parser_eofStart_iff_nil (f : Nat) :
    (∀ ts, exprFromTokensF f ts = .error .eofStart → ts = [])
      ∧ (∀ ts, readListF f ts ≠ .error .eofStart) := by
  induction f with
  | zero =>
    constructor
    · intro ts h
      simp [exprFromTokensF] at h
    · intro ts h
      simp [readListF] at h
  | succ f ih =>
    obtain ⟨ihA, ihB⟩ := ih
    constructor
    · intro ts h
      match ts with
      | [] => rfl
      | t :: ts' =>
        by_cases h1 : t = "("
        · subst h1
          simp only [exprFromTokensF, if_pos rfl] at h
          cases hr : readListF f ts' with
          | error e =>
            rw [hr] at h
            simp at h
            subst h
            exact absurd hr (ihB ts')
          | ok p =>
            rw [hr] at h
            simp at h
        · by_cases h2 : t = ")"
          · subst h2
            simp [exprFromTokensF] at h
          · simp [exprFromTokensF, h1, h2] at h
    · intro ts h
      match ts with
      | [] => simp [readListF] at h
      | t :: ts' =>
        by_cases h2 : t = ")"
        · subst h2
          simp [readListF] at h
        · simp only [readListF, if_neg h2] at h
          cases hr : exprFromTokensF f (t :: ts') with
          | error e =>
            rw [hr] at h
            simp at h
            subst h
            exact absurd (ihA _ hr) (by simp)
          | ok p =>
            obtain ⟨v, rest⟩ := p
            rw [hr] at h
            simp only [] at h
            cases hr2 : readListF f rest with
            | error e2 =>
              rw [hr2] at h
              simp at h
              subst h
              exact absurd hr2 (ihB rest)
            | ok p2 =>
              obtain ⟨vs, rest'⟩ := p2
              rw [hr2] at h
              simp at h

theorem parser_unexpectedClose_iff (f : Nat) :
    (∀ ts, exprFromTokensF f ts = .error .unexpectedClose →
      ts.head? = some ")")
      ∧ (∀ ts, readListF f ts ≠ .error .unexpectedClose) := by
  induction f with
  | zero =>
    constructor
    · intro ts h
      simp [exprFromTokensF] at h
    · intro ts h
      simp [readListF] at h
  | succ f ih =>
    obtain ⟨ihA, ihB⟩ := ih
    constructor
    · intro ts h
      match ts with
      | [] => simp [exprFromTokensF] at h
      | t :: ts' =>
        by_cases h1 : t = "("
        · subst h1
          simp only [exprFromTokensF, if_pos rfl] at h
          cases hr : readListF f ts' with
          | error e =>
            rw [hr] at h
            simp at h
            subst h
            exact absurd hr (ihB ts')
          | ok p =>
            rw [hr] at h
            simp at h
        · by_cases h2 : t = ")"
          · subst h2
            rfl
          · simp [exprFromTokensF, h1, h2] at h
    · intro ts h
      match ts with
      | [] => simp [readListF] at h
      | t :: ts' =>
        by_cases h2 : t = ")"
        · subst h2
          simp [readListF] at h
        · simp only [readListF, if_neg h2] at h
          cases hr : exprFromTokensF f (t :: ts') with
          | error e =>
            rw [hr] at h
            simp at h
            subst h
            have := ihA _ hr
            simp at this
            exact h2 this
          | ok p =>
            obtain ⟨v, rest⟩ := p
            rw [hr] at h
            simp only [] at h
            cases hr2 : readListF f rest with
            | error e2 =>
              rw [hr2] at h
              simp at h
              subst h
              exact absurd hr2 (ihB rest)
            | ok p2 =>
              obtain ⟨vs, rest'⟩ := p2
              rw [hr2] at h
              simp at h

theorem parser_consume (f : Nat) :
    (∀ ts v rest, exprFromTokensF f ts = .ok (v, rest) →
      rest.length < ts.length ∧ rest <:+ ts)
      ∧ (∀ ts vs rest, readListF f ts = .ok (vs, rest) →
      rest.length < ts.length ∧ rest <:+ ts) := by
  induction f with
  | zero =>
    constructor
    · intro ts v rest h
      simp [exprFromTokensF] at h
    · intro ts vs rest h
      simp [readListF] at h
  | succ f ih =>
    obtain ⟨ihA, ihB⟩ := ih
    constructor
    · intro ts v rest h
      match ts with
      | [] => simp [exprFromTokensF] at h
      | t :: ts' =>
        by_cases h1 : t = "("
        · subst h1
          simp only [exprFromTokensF, if_pos rfl] at h
          cases hr : readListF f ts' with
          | error e =>
            rw [hr] at h
            simp at h
          | ok p =>
            obtain ⟨vs2, rest2⟩ := p
            rw [hr] at h
            simp at h
            obtain ⟨hlen, hsuf⟩ := ihB ts' vs2 rest2 hr
            obtain ⟨-, h2⟩ := h
            subst h2
            exact ⟨Nat.lt_succ_of_lt hlen,
              hsuf.trans (List.suffix_cons "(" ts')⟩
        · by_cases h2 : t = ")"
          · subst h2
            simp [exprFromTokensF] at h
          · simp [exprFromTokensF, h1, h2] at h
            obtain ⟨-, h3⟩ := h
            subst h3
            exact ⟨Nat.lt_succ_self _, List.suffix_cons t ts'⟩
    · intro ts vs rest h
      match ts with
      | [] => simp [readListF] at h
      | t :: ts' =>
        by_cases h2 : t = ")"
        · subst h2
          simp [readListF] at h
          obtain ⟨-, h3⟩ := h
          subst h3
          exact ⟨Nat.lt_succ_self _, List.suffix_cons ")" ts'⟩
        · simp only [readListF, if_neg h2] at h
          cases hr : exprFromTokensF f (t :: ts') with
          | error e =>
            rw [hr] at h
            simp at h
          | ok p =>
            obtain ⟨v1, rest1⟩ := p
            rw [hr] at h
            simp only [] at h
            cases hr2 : readListF f rest1 with
            | error e2 =>
              rw [hr2] at h
              simp at h
            | ok p2 =>
              obtain ⟨vs2, rest2⟩ := p2
              rw [hr2] at h
              simp at h
              obtain ⟨hl1, hs1⟩ := ihA _ _ _ hr
              obtain ⟨hl2, hs2⟩ := ihB _ _ _ hr2
              obtain ⟨-, h3⟩ := h
              subst h3
              exact ⟨hl2.trans hl1, hs2.trans hs1⟩

theorem parser_err_subset (f : Nat) :
    (∀ ts e, exprFromTokensF f ts = .error e →
      (e = .fuel ∨ e = .eofStart ∨ e = .eofMid ∨ e = .unexpectedClose))
      ∧ (∀ ts e, readListF f ts = .error e →
      (e = .fuel ∨ e = .eofStart ∨ e = .eofMid ∨ e = .unexpectedClose)) := by
  induction f with
  | zero =>
    constructor
    · intro ts e h
      simp [exprFromTokensF] at h
      simp [h]
    · intro ts e h
      simp [readListF] at h
      simp [h]
  | succ f ih =>
    obtain ⟨ihA, ihB⟩ := ih
    constructor
    · intro ts e h
      match ts with
      | [] =>
        simp [exprFromTokensF] at h
        simp [h]
      | t :: ts' =>
        by_cases h1 : t = "("
        · subst h1
          simp only [exprFromTokensF, if_pos rfl] at h
          cases hr : readListF f ts' with
          | error e2 =>
            rw [hr] at h
            simp at h
            subst h
            exact ihB _ _ hr
          | ok p =>
            rw [hr] at h
            simp at h
        · by_cases h2 : t = ")"
          · subst h2
            simp [exprFromTokensF] at h
            simp [h]
          · simp [exprFromTokensF, h1, h2] at h
    · intro ts e h
      match ts with
      | [] =>
        simp [readListF] at h
        simp [h]
      | t :: ts' =>
        by_cases h2 : t = ")"
        · subst h2
          simp [readListF] at h
        · simp only [readListF, if_neg h2] at h
          cases hr : exprFromTokensF f (t :: ts') with
          | error e2 =>
            rw [hr] at h
            simp at h
            subst h
            exact ihA _ _ hr
          | ok p =>
            obtain ⟨v, rest⟩ := p
            rw [hr] at h
            simp only [] at h
            cases hr2 : readListF f rest with
            | error e3 =>
              rw [hr2] at h
              simp at h
              subst h
              exact ihB _ _ hr2
            | ok p2 =>
              obtain ⟨vs, rest'⟩ := p2
              rw [hr2] at h
              simp at h

theorem parser_sufficient (f : Nat) :
    (∀ ts, 2 * ts.length + 1 ≤ f → exprFromTokensF f ts ≠ .error .fuel)
      ∧ (∀ ts, 2 * ts.length + 2 ≤ f → readListF f ts ≠ .error .fuel) := by
  induction f with
  | zero =>
    constructor
    · intro ts hb
      omega
    · intro ts hb
      omega
  | succ f ih =>
    obtain ⟨ihA, ihB⟩ := ih
    constructor
    · intro ts hb h
      match ts with
      | [] => simp [exprFromTokensF] at h
      | t :: ts' =>
        by_cases h1 : t = "("
        · subst h1
          simp only [exprFromTokensF, if_pos rfl] at h
          cases hr : readListF f ts' with
          | error e =>
            rw [hr] at h
            simp at h
            subst h
            have : 2 * ts'.length + 2 ≤ f := by
              simp at hb
              omega
            exact ihB ts' this hr
          | ok p =>
            rw [hr] at h
            simp at h
        · by_cases h2 : t = ")"
          · subst h2
            simp [exprFromTokensF] at h
          · simp [exprFromTokensF, h1, h2] at h
    · intro ts hb h
      match ts with
      | [] => simp [readListF] at h
      | t :: ts' =>
        by_cases h2 : t = ")"
        · subst h2
          simp [readListF] at h
        · simp only [readListF, if_neg h2] at h
          have hbA : 2 * (t :: ts').length + 1 ≤ f := by
            simp at hb ⊢
            omega
          cases hr : exprFromTokensF f (t :: ts') with
          | error e =>
            rw [hr] at h
            simp at h
            subst h
            exact ihA _ hbA hr
          | ok p =>
            obtain ⟨v, rest⟩ := p
            rw [hr] at h
            simp only [] at h
            cases hr2 : readListF f rest with
            | error e2 =>
              rw [hr2] at h
              simp at h
              subst h
              have hlt := ((parser_consume f).1 _ _ _ hr).1
              have : 2 * rest.length + 2 ≤ f := by
                simp at hlt hbA
                omega
              exact ihB _ this hr2
            | ok p2 =>
              obtain ⟨vs, rest'⟩ := p2
              rw [hr2] at h
              simp at h

/-- `UnexpectedEof (mid)` at the top level means the expression opened
with `(`. -/
theorem parser_eofMid_head (f : Nat) (ts : List String)
    (h : exprFromTokensF (f + 1) ts = .error .eofMid) :
    ts.head? = some "(" := by
  match ts with
  | [] => simp [exprFromTokensF] at h
  | t :: ts' =>
    by_cases h1 : t = "("
    · subst h1
      rfl
    · by_cases h2 : t = ")"
      · subst h2
        simp [exprFromTokensF] at h
      · simp [exprFromTokensF, h1, h2] at h

/-- C8: `read_one` fails with `UnexpectedEof` "at start of expression"
exactly when the token sequence is empty; with `UnexpectedCloseParen`
exactly when the next token is `)` (no open context); an `UnexpectedEof`
"mid expression" only arises when the expression opened with `(`; in every
other case it removes a nonempty prefix and returns one Expression (or,
when the tokens run out inside the open list, fails "mid expression"). -/
theorem c8_reader_errors :
    ∀ ts : List String,
      (exprFromTokens ts = .error .eofStart ↔ ts = [])
      ∧ (exprFromTokens ts = .error .unexpectedClose ↔ ts.head? = some ")")
      ∧ (exprFromTokens ts = .error .eofMid → ts.head? = some "(")
      ∧ (∀ v rest, exprFromTokens ts = .ok (v, rest) →
          ∃ pre, pre ≠ [] ∧ ts = pre ++ rest)
      ∧ (ts ≠ [] → ts.head? ≠ some ")" →
          (exprFromTokens ts = .error .eofMid
            ∨ ∃ v rest, exprFromTokens ts = .ok (v, rest))) := by
  intro ts
  refine ⟨⟨?_, ?_⟩, ⟨?_, ?_⟩, ?_, ?_, ?_⟩
  · exact fun h => (parser_eofStart_iff_nil _).1 ts h
  · intro h
    subst h
    rfl
  · exact fun h => (parser_unexpectedClose_iff _).1 ts h
  · intro h
    cases ts with
    | nil => simp at h
    | cons t ts' =>
      simp at h
      subst h
      rfl
  · intro h
    obtain ⟨g, hg⟩ : ∃ g, 2 * ts.length + 1 = g + 1 := ⟨2 * ts.length, rfl⟩
    rw [exprFromTokens, hg] at h
    rw [parser_eofMid_head g ts h]
  · intro v rest h
    obtain ⟨hlen, hsuf⟩ := (parser_consume _).1 ts v rest h
    obtain ⟨pre, hpre⟩ := hsuf
    refine ⟨pre, ?_, hpre.symm⟩
    intro hnil
    subst hnil
    simp at hpre
    subst hpre
    exact Nat.lt_irrefl _ hlen
  · intro hne hhd
    cases hr : exprFromTokens ts with
    | ok p =>
      obtain ⟨v, rest⟩ := p
      exact Or.inr ⟨v, rest, rfl⟩
    | error e =>
      rcases (parser_err_subset _).1 ts e hr with h | h | h | h
      · subst h
        exact absurd hr ((parser_sufficient _).1 ts (Nat.le_refl _))
      · subst h
        exact absurd ((parser_eofStart_iff_nil _).1 ts hr) hne
      · subst h
        exact Or.inl rfl
      · subst h
        exact absurd ((parser_unexpectedClose_iff _).1 ts hr) hhd

/-- Witness for C8 at the spec's own examples: bare `)` and empty input. -/
theorem c8_reader_errors_witness :
    exprFromTokens [")"] = .error .unexpectedClose
    ∧ exprFromTokens [] = .error .eofStart :=
  ⟨((c8_reader_errors [")"]).2.1).mpr rfl, ((c8_reader_errors []).1).mpr rfl⟩
-- ## C9 — round-trip: stringify then re-read

/-- No whitespace characters. -/
def wsFree (cs : List Char) : Prop := ∀ c ∈ cs, pyIsSpace c = false

/-- No parenthesis characters. -/
def parenFree (cs : List Char) : Prop := ∀ c ∈ cs, c ≠ '(' ∧ c ≠ ')'

/-- What `tokenize` guarantees of every token: nonempty, whitespace-free,
and either a lone paren or paren-free. -/
def CleanTok (t : String) : Prop :=
  t.data ≠ [] ∧ wsFree t.data ∧ (t.data = ['('] ∨ t.data = [')'] ∨ parenFree t.data)

theorem splitWsAux_tokens (cs : List Char) :
    ∀ acc, wsFree acc → ∀ t ∈ splitWsAux cs acc, t ≠ [] ∧ wsFree t := by
  induction cs with
  | nil =>
    intro acc hacc t ht
    simp only [splitWsAux] at ht
    by_cases he : acc.isEmpty
    · simp [he] at ht
    · simp [he] at ht
      subst ht
      constructor
      · simpa using fun h => he (by simp [h, List.isEmpty_iff])
      · intro c hc
        exact hacc c (List.mem_reverse.mp hc)
  | cons c cs ih =>
    intro acc hacc t ht
    simp only [splitWsAux] at ht
    by_cases hsp : pyIsSpace c
    · rw [if_pos hsp] at ht
      rcases List.mem_append.mp ht with h | h
      · by_cases he : acc.isEmpty
        · simp [he] at h
        · simp [he] at h
          subst h
          constructor
          · simpa using fun h => he (by simp [h, List.isEmpty_iff])
          · intro d hd
            exact hacc d (List.mem_reverse.mp hd)
      · exact ih [] (by intro d hd; simp at hd) t h
    · rw [if_neg hsp] at ht
      refine ih (c :: acc) ?_ t ht
      intro d hd
      rcases List.mem_cons.mp hd with h | h
      · subst h
        simpa using hsp
      · exact hacc d h

theorem expand_cons (c : Char) (cs : List Char) :
    expand (c :: cs) = expandChar c ++ expand cs := by
  simp [expand]

theorem expand_append (a b : List Char) :
    expand (a ++ b) = expand a ++ expand b := by
  simp [expand]

theorem splitWsAux_expand_parens (cs : List Char) :
    ∀ acc, parenFree acc →
      ∀ t ∈ splitWsAux (expand cs) acc,
        t = ['('] ∨ t = [')'] ∨ parenFree t := by
  induction cs with
  | nil =>
    intro acc hacc t ht
    simp only [expand, List.map_nil, List.flatten_nil, splitWsAux] at ht
    by_cases he : acc.isEmpty
    · simp [he] at ht
    · simp [he] at ht
      subst ht
      refine Or.inr (Or.inr ?_)
      intro c hc
      exact hacc c (List.mem_reverse.mp hc)
  | cons c cs ih =>
    intro acc hacc t ht
    rw [expand_cons] at ht
    by_cases hcl : c = '('
    · subst hcl
      simp only [expandChar, if_pos rfl, List.cons_append, List.nil_append,
        splitWsAux] at ht
      rw [if_pos (by decide)] at ht
      rcases List.mem_append.mp ht with h | h
      · by_cases he : acc.isEmpty
        · simp [he] at h
        · simp [he] at h
          subst h
          refine Or.inr (Or.inr ?_)
          intro d hd
          exact hacc d (List.mem_reverse.mp hd)
      · simp only [splitWsAux, if_neg (by decide : ¬pyIsSpace '(' = true)] at h
        simp only [splitWsAux, if_pos (by decide : pyIsSpace ' ' = true)] at h
        rcases List.mem_append.mp h with h2 | h2
        · simp at h2
          subst h2
          exact Or.inl rfl
        · exact ih [] (by intro d hd; simp at hd) t h2
    · by_cases hcr : c = ')'
      · subst hcr
        simp only [expandChar, if_neg (by decide : ¬(')' = '(')), if_pos rfl,
          List.cons_append, List.nil_append, splitWsAux] at ht
        rw [if_pos (by decide)] at ht
        rcases List.mem_append.mp ht with h | h
        · by_cases he : acc.isEmpty
          · simp [he] at h
          · simp [he] at h
            subst h
            refine Or.inr (Or.inr ?_)
            intro d hd
            exact hacc d (List.mem_reverse.mp hd)
        · simp only [splitWsAux, if_neg (by decide : ¬pyIsSpace ')' = true)] at h
          simp only [splitWsAux, if_pos (by decide : pyIsSpace ' ' = true)] at h
          rcases List.mem_append.mp h with h2 | h2
          · simp at h2
            subst h2
            exact Or.inr (Or.inl rfl)
          · exact ih [] (by intro d hd; simp at hd) t h2
      · simp only [expandChar, if_neg hcl, if_neg hcr, List.cons_append,
          List.nil_append, splitWsAux] at ht
        by_cases hsp : pyIsSpace c
        · rw [if_pos hsp] at ht
          rcases List.mem_append.mp ht with h | h
          · by_cases he : acc.isEmpty
            · simp [he] at h
            · simp [he] at h
              subst h
              refine Or.inr (Or.inr ?_)
              intro d hd
              exact hacc d (List.mem_reverse.mp hd)
          · exact ih [] (by intro d hd; simp at hd) t h
        · rw [if_neg hsp] at ht
          refine ih (c :: acc) ?_ t ht
          intro d hd
          rcases List.mem_cons.mp hd with h | h
          · subst h
            exact ⟨hcl, hcr⟩
          · exact hacc d h

/-- Every token produced by `tokenize` is clean. -/
theorem tokenize_clean (s : String) : ∀ t ∈ tokenize s, CleanTok t := by
  intro t ht
  simp only [tokenize, List.mem_map] at ht
  obtain ⟨cs, hcs, hmk⟩ := ht
  subst hmk
  have h1 := splitWsAux_tokens (expand s.data) [] (by intro d hd; simp at hd)
    cs hcs
  have h2 := splitWsAux_expand_parens s.data [] (by intro d hd; simp at hd)
    cs hcs
  exact ⟨h1.1, h1.2, h2⟩

/-- Rationals with a power-of-ten denominator: exactly what float literals
denote. -/
def DecRat (q : Rat) : Prop := ∃ (m : Int) (k : Nat), q = m / 10 ^ k

theorem decRat_neg {q : Rat} (h : DecRat q) : DecRat (-q) := by
  obtain ⟨m, k, rfl⟩ := h
  exact ⟨-m, k, by push_cast; ring⟩

theorem pyFloatBody_decRat (cs : List Char) (q : Rat)
    (h : pyFloatBody cs = some q) : DecRat q := by
  have base : ∀ (a : Nat) (j : Nat) (e : Int),
      DecRat (((a : Rat) / 10 ^ j) * (10 : Rat) ^ e) := by
    intro a j e
    rcases Int.le_or_lt 0 e with he | he
    · obtain ⟨n, rfl⟩ := Int.eq_ofNat_of_zero_le he
      refine ⟨(a : Int) * 10 ^ n, j, ?_⟩
      rw [zpow_natCast]
      push_cast
      ring
    · obtain ⟨n, hn⟩ : ∃ n : Nat, e = -(n : Int) := by
        refine ⟨e.natAbs, ?_⟩
        omega
      subst hn
      refine ⟨(a : Int), j + n, ?_⟩
      rw [zpow_neg, zpow_natCast]
      push_cast
      rw [pow_add]
      field_simp
  simp only [pyFloatBody] at h
  split at h
  · rename_i r2 heq
    split at h
    · simp at h
    · rename_i hne
      simp only [Option.map_eq_some'] at h
      obtain ⟨e, he, rfl⟩ := h
      have : (digitsToNat (cs.takeWhile Char.isDigit) : Rat)
            + (digitsToNat (r2.takeWhile Char.isDigit) : Rat)
              / 10 ^ (r2.takeWhile Char.isDigit).length
          = ((digitsToNat (cs.takeWhile Char.isDigit)
              * 10 ^ (r2.takeWhile Char.isDigit).length
              + digitsToNat (r2.takeWhile Char.isDigit) : Nat) : Rat)
            / 10 ^ (r2.takeWhile Char.isDigit).length := by
        push_cast
        field_simp
      rw [this]
      exact base _ _ _
  · split at h
    · simp at h
    · simp only [Option.map_eq_some'] at h
      obtain ⟨e, he, rfl⟩ := h
      have : (digitsToNat (cs.takeWhile Char.isDigit) : Rat)
          = ((digitsToNat (cs.takeWhile Char.isDigit) : Nat) : Rat) / 10 ^ 0 := by
        simp
      rw [this]
      exact base _ _ _

theorem pyFloat_decRat (cs : List Char) (q : Rat)
    (h : pyFloat cs = some q) : DecRat q := by
  simp only [pyFloat] at h
  split at h
  · exact pyFloatBody_decRat _ _ h
  · simp only [Option.map_eq_some'] at h
    obtain ⟨q2, hq2, rfl⟩ := h
    exact decRat_neg (pyFloatBody_decRat _ _ hq2)
  · exact pyFloatBody_decRat _ _ h

/-- The shape of every Expression the reader can produce from clean
tokens: float payloads are decimal rationals, symbols are clean tokens on
which both numeric parses failed. -/
inductive WF : Value → Prop
  | int (n : Int) : WF (.int n)
  | float (q : Rat) : DecRat q → WF (.float q)
  | sym (s : String) : s.data ≠ [] → wsFree s.data → parenFree s.data →
      pyInt s.data = Option.none → pyFloat s.data = Option.none → WF (.sym s)
  | list (xs : List Value) : (∀ x ∈ xs, WF x) → WF (.list xs)

theorem atom_WF (t : String) (hc : CleanTok t)
    (h1 : ¬t = "(") (h2 : ¬t = ")") : WF (atom t) := by
  obtain ⟨hne, hws, hp⟩ := hc
  have hpf : parenFree t.data := by
    rcases hp with h | h | h
    · exact absurd (by cases t; simp at h; simp [h]) h1
    · exact absurd (by cases t; simp at h; simp [h]) h2
    · exact h
  unfold atom
  cases hi : pyInt t.data with
  | some n => exact WF.int n
  | none =>
    cases hf : pyFloat t.data with
    | some q => exact WF.float q (pyFloat_decRat _ _ hf)
    | none => exact WF.sym t hne hws hpf hi hf

theorem parser_WF (f : Nat) :
    (∀ ts v rest, (∀ t ∈ ts, CleanTok t) →
      exprFromTokensF f ts = .ok (v, rest) → WF v)
      ∧ (∀ ts vs rest, (∀ t ∈ ts, CleanTok t) →
      readListF f ts = .ok (vs, rest) → ∀ x ∈ vs, WF x) := by
  induction f with
  | zero =>
    constructor
    · intro ts v rest _ h
      simp [exprFromTokensF] at h
    · intro ts vs rest _ h
      simp [readListF] at h
  | succ f ih =>
    obtain ⟨ihA, ihB⟩ := ih
    constructor
    · intro ts v rest hcl h
      match ts with
      | [] => simp [exprFromTokensF] at h
      | t :: ts' =>
        by_cases h1 : t = "("
        · subst h1
          simp only [exprFromTokensF, if_pos rfl] at h
          cases hr : readListF f ts' with
          | error e =>
            rw [hr] at h
            simp at h
          | ok p =>
            obtain ⟨vs2, rest2⟩ := p
            rw [hr] at h
            simp at h
            obtain ⟨hv, -⟩ := h
            subst hv
            exact WF.list vs2
              (ihB ts' vs2 rest2 (fun u hu => hcl u (List.mem_cons_of_mem _ hu)) hr)
        · by_cases h2 : t = ")"
          · subst h2
            simp [exprFromTokensF] at h
          · simp [exprFromTokensF, h1, h2] at h
            obtain ⟨hv, -⟩ := h
            subst hv
            exact atom_WF t (hcl t (List.mem_cons_self t ts')) h1 h2
    · intro ts vs rest hcl h
      match ts with
      | [] => simp [readListF] at h
      | t :: ts' =>
        by_cases h2 : t = ")"
        · subst h2
          simp [readListF] at h
          obtain ⟨hv, -⟩ := h
          subst hv
          intro x hx
          simp at hx
        · simp only [readListF, if_neg h2] at h
          cases hr : exprFromTokensF f (t :: ts') with
          | error e =>
            rw [hr] at h
            simp at h
          | ok p =>
            obtain ⟨v1, rest1⟩ := p
            rw [hr] at h
            simp only [] at h
            cases hr2 : readListF f rest1 with
            | error e2 =>
              rw [hr2] at h
              simp at h
            | ok p2 =>
              obtain ⟨vs2, rest2⟩ := p2
              rw [hr2] at h
              simp at h
              obtain ⟨hv, -⟩ := h
              subst hv
              intro x hx
              have hsub : rest1 <:+ t :: ts' := ((parser_consume f).1 _ _ _ hr).2
              have hcl2 : ∀ u ∈ rest1, CleanTok u :=
                fun u hu => hcl u (hsub.subset hu)
              rcases List.mem_cons.mp hx with h3 | h3
              · subst h3
                exact ihA _ _ _ hcl hr
              · exact ihB _ _ _ hcl2 hr2 x h3

theorem digitToChar_isDigit {d : Nat} (h : d < 10) :
    (digitToChar d).isDigit = true := by
  interval_cases d <;> decide

theorem digToNat_digitToChar {d : Nat} (h : d < 10) :
    digToNat (digitToChar d) = d := by
  interval_cases d <;> decide

theorem isDigit_not_special {c : Char} (h : c.isDigit = true) :
    pyIsSpace c = false ∧ c ≠ '(' ∧ c ≠ ')' ∧ c ≠ '+' ∧ c ≠ '-' ∧ c ≠ '.' := by
  refine ⟨?_, ?_, ?_, ?_, ?_, ?_⟩
  · by_contra hcon
    simp only [Bool.not_eq_false] at hcon
    simp only [pyIsSpace, Bool.or_eq_true, decide_eq_true_eq] at hcon
    rcases hcon with ((((h1 | h1) | h1) | h1) | h1) | h1 <;> (subst h1; simp at h)
  all_goals
    intro h1
    subst h1
    simp at h

theorem natDigitsAux_digits (f : Nat) :
    ∀ n, ∀ c ∈ natDigitsAux f n, c.isDigit = true := by
  induction f with
  | zero =>
    intro n c hc
    simp [natDigitsAux] at hc
  | succ f ih =>
    intro n c hc
    match n with
    | 0 => simp [natDigitsAux] at hc
    | n + 1 =>
      simp only [natDigitsAux, List.mem_cons] at hc
      rcases hc with h | h
      · subst h
        exact digitToChar_isDigit (Nat.mod_lt _ (by omega))
      · exact ih _ c h

theorem natToChars_digits (n : Nat) : ∀ c ∈ natToChars n, c.isDigit = true := by
  intro c hc
  unfold natToChars at hc
  by_cases h : n = 0
  · simp [h] at hc
    simp [hc]
  · rw [if_neg h] at hc
    exact natDigitsAux_digits n n c (List.mem_reverse.mp hc)

theorem natToChars_ne_nil (n : Nat) : natToChars n ≠ [] := by
  unfold natToChars
  by_cases h : n = 0
  · simp [h]
  · rw [if_neg h]
    simp only [ne_eq, List.reverse_eq_nil_iff]
    match n, h with
    | n + 1, _ => simp [natDigitsAux]

theorem digitsToNat_append (A B : List Char) :
    digitsToNat (A ++ B) = digitsToNat A * 10 ^ B.length + digitsToNat B := by
  induction B generalizing A with
  | nil => simp [digitsToNat]
  | cons b B ih =>
    have h1 : A ++ b :: B = (A ++ [b]) ++ B := by simp
    have h2 : digitsToNat (A ++ [b]) = 10 * digitsToNat A + digToNat b := by
      simp [digitsToNat, List.foldl_append]
    have h3 : digitsToNat (b :: B) = digToNat b * 10 ^ B.length + digitsToNat B := by
      have := ih [b]
      have h4 : digitsToNat [b] = digToNat b := by simp [digitsToNat]
      calc digitsToNat (b :: B) = digitsToNat ([b] ++ B) := by simp
        _ = digToNat b * 10 ^ B.length + digitsToNat B := by rw [ih [b], h4]
    rw [h1, ih (A ++ [b]), h2, h3]
    simp only [List.length_cons, pow_succ]
    ring

theorem digitsToNat_natDigitsAux (f : Nat) :
    ∀ n, n ≤ f → digitsToNat ((natDigitsAux f n).reverse) = n := by
  induction f with
  | zero =>
    intro n hn
    interval_cases n
    simp [natDigitsAux, digitsToNat]
  | succ f ih =>
    intro n hn
    match n with
    | 0 => simp [natDigitsAux, digitsToNat]
    | n + 1 =>
      simp only [natDigitsAux, List.reverse_cons]
      rw [digitsToNat_append]
      have hle : (n + 1) / 10 ≤ f := by omega
      rw [ih _ hle]
      simp [digitsToNat, digToNat_digitToChar (Nat.mod_lt (n + 1) (by omega))]
      omega

theorem digitsToNat_natToChars (n : Nat) : digitsToNat (natToChars n) = n := by
  unfold natToChars
  by_cases h : n = 0
  · simp [h, digitsToNat, digToNat]
  · rw [if_neg h]
    exact digitsToNat_natDigitsAux n n (Nat.le_refl n)

theorem pyInt_digit_head (d : Char) (ds : List Char) (hd : d.isDigit = true) :
    pyInt (d :: ds) =
      (if d :: ds ≠ [] ∧ (d :: ds).all Char.isDigit
        then some ((digitsToNat (d :: ds) : Nat) : Int) else Option.none) := by
  obtain ⟨-, -, -, hplus, hminus, -⟩ := isDigit_not_special hd
  simp only [pyInt]
  split
  · rename_i rest heq
    rw [List.cons.injEq] at heq
    exact absurd heq.1 hplus
  · rename_i rest heq
    rw [List.cons.injEq] at heq
    exact absurd heq.1 hminus
  · rfl

theorem pyInt_natToChars (m : Nat) : pyInt (natToChars m) = some (m : Int) := by
  obtain ⟨d, ds, hds⟩ : ∃ d ds, natToChars m = d :: ds := by
    cases h : natToChars m with
    | nil => exact absurd h (natToChars_ne_nil m)
    | cons d ds => exact ⟨d, ds, rfl⟩
  have hdig : ∀ c ∈ natToChars m, c.isDigit = true := natToChars_digits m
  have hd : d.isDigit = true := hdig d (by rw [hds]; exact List.mem_cons_self d ds)
  rw [hds, pyInt_digit_head d ds hd, if_pos]
  · rw [← hds, digitsToNat_natToChars]
  · refine ⟨by simp, ?_⟩
    rw [List.all_eq_true]
    intro c hc
    exact hdig c (by rw [hds]; exact hc)

theorem pyInt_intToChars (n : Int) : pyInt (intToChars n) = some n := by
  unfold intToChars
  by_cases h : n < 0
  · rw [if_pos h]
    have hds : pyInt ('-' :: natToChars n.natAbs)
        = (pyInt (natToChars n.natAbs)).map (fun x => -x) := by
      obtain ⟨d, ds, hds⟩ : ∃ d ds, natToChars n.natAbs = d :: ds := by
        cases hh : natToChars n.natAbs with
        | nil => exact absurd hh (natToChars_ne_nil _)
        | cons d ds => exact ⟨d, ds, rfl⟩
      have hd : d.isDigit = true :=
        natToChars_digits _ d (by rw [hds]; exact List.mem_cons_self d ds)
      rw [hds, pyInt_digit_head d ds hd]
      rfl
    rw [hds, pyInt_natToChars]
    simp only [Option.map_some']
    congr 1
    omega
  · rw [if_neg h]
    rw [pyInt_natToChars]
    congr 1
    omega

theorem intToChars_chars (n : Int) :
    ∀ c ∈ intToChars n, c.isDigit = true ∨ c = '-' ∨ c = '.' := by
  intro c hc
  unfold intToChars at hc
  by_cases h : n < 0
  · rw [if_pos h] at hc
    rcases List.mem_cons.mp hc with h1 | h1
    · exact Or.inr (Or.inl h1)
    · exact Or.inl (natToChars_digits _ c h1)
  · rw [if_neg h] at hc
    exact Or.inl (natToChars_digits _ c hc)

theorem numChars_free (cs : List Char)
    (h : ∀ c ∈ cs, c.isDigit = true ∨ c = '-' ∨ c = '.') :
    wsFree cs ∧ parenFree cs := by
  constructor
  · intro c hc
    rcases h c hc with h1 | h1 | h1
    · exact (isDigit_not_special h1).1
    · subst h1; decide
    · subst h1; decide
  · intro c hc
    rcases h c hc with h1 | h1 | h1
    · exact ⟨(isDigit_not_special h1).2.1, (isDigit_not_special h1).2.2.1⟩
    · subst h1; exact ⟨by decide, by decide⟩
    · subst h1; exact ⟨by decide, by decide⟩

theorem takeWhile_all_append (p : Char → Bool) (A : List Char) (c : Char)
    (B : List Char) (hA : ∀ a ∈ A, p a = true) (hc : p c = false) :
    (A ++ c :: B).takeWhile p = A ∧ (A ++ c :: B).dropWhile p = c :: B := by
  induction A with
  | nil => simp [List.takeWhile, List.dropWhile, hc]
  | cons a A ih =>
    have ha : p a = true := hA a (List.mem_cons_self a A)
    have ih2 := ih (fun x hx => hA x (List.mem_cons_of_mem a hx))
    constructor
    · simp [List.takeWhile_cons, ha, ih2.1]
    · simp [List.dropWhile_cons, ha, ih2.2]

theorem takeWhile_all (p : Char → Bool) (A : List Char)
    (hA : ∀ a ∈ A, p a = true) :
    A.takeWhile p = A ∧ A.dropWhile p = [] := by
  induction A with
  | nil => simp
  | cons a A ih =>
    have ha : p a = true := hA a (List.mem_cons_self a A)
    have ih2 := ih (fun x hx => hA x (List.mem_cons_of_mem a hx))
    simp [List.takeWhile_cons, List.dropWhile_cons, ha, ih2.1, ih2.2]

theorem digitsToNat_replicate_zero (j : Nat) :
    digitsToNat (List.replicate j '0') = 0 := by
  induction j with
  | zero => rfl
  | succ j ih =>
    have : List.replicate (j + 1) '0' = List.replicate j '0' ++ ['0'] := by
      rw [List.replicate_succ']
    rw [this, digitsToNat_append, ih]
    rfl

theorem dvd_ten_pow_self {d K : Nat} (h : d ∣ 10 ^ K) : d ∣ 10 ^ d := by
  have h10 : (10 : Nat) ^ K = 2 ^ K * 5 ^ K := by
    rw [← Nat.mul_pow]
  rw [h10] at h
  rcases (Nat.dvd_mul).mp h with ⟨a, b, ha, hb, hab⟩
  obtain ⟨α, hαK, rfl⟩ := (Nat.dvd_prime_pow Nat.prime_two).mp ha
  obtain ⟨β, hβK, rfl⟩ := (Nat.dvd_prime_pow (by norm_num : Nat.Prime 5)).mp hb
  subst hab
  have hα : α ≤ 2 ^ α * 5 ^ β := by
    have h1 : α < 2 ^ α := Nat.lt_two_pow α
    have h2 : 2 ^ α ≤ 2 ^ α * 5 ^ β :=
      Nat.le_mul_of_pos_right _ (Nat.pos_pow_of_pos β (by omega))
    omega
  have hβ : β ≤ 2 ^ α * 5 ^ β := by
    have h1 : β < 2 ^ β := Nat.lt_two_pow β
    have h2 : 2 ^ β ≤ 5 ^ β := Nat.pow_le_pow_left (by omega) β
    have h3 : 5 ^ β ≤ 2 ^ α * 5 ^ β :=
      Nat.le_mul_of_pos_left _ (Nat.pos_pow_of_pos α (by omega))
    omega
  have : (10 : Nat) ^ (2 ^ α * 5 ^ β) = 2 ^ (2 ^ α * 5 ^ β) * 5 ^ (2 ^ α * 5 ^ β) := by
    rw [← Nat.mul_pow]
  rw [this]
  exact Nat.mul_dvd_mul (Nat.pow_dvd_pow 2 hα) (Nat.pow_dvd_pow 5 hβ)

theorem minTenExpAux_dvd (f : Nat) :
    ∀ d k, d ∣ 10 ^ (k + f) → d ∣ 10 ^ (minTenExpAux f d k) := by
  induction f with
  | zero =>
    intro d k h
    simpa [minTenExpAux] using h
  | succ f ih =>
    intro d k h
    simp only [minTenExpAux]
    by_cases hm : 10 ^ k % d = 0
    · rw [if_pos hm]
      exact Nat.dvd_of_mod_eq_zero hm
    · rw [if_neg hm]
      refine ih d (k + 1) ?_
      have : k + 1 + f = k + (f + 1) := by omega
      rw [this]
      exact h

theorem decRat_den_dvd {q : Rat} (h : DecRat q) :
    q.den ∣ 10 ^ (max (minTenExp q.den) 1) := by
  obtain ⟨m, k, rfl⟩ := h
  have h1 : ((m : Rat) / (10 ^ k : Int)).den ∣ ((10 : Int) ^ k).natAbs := by
    exact_mod_cast Rat.den_dvd m ((10 : Int) ^ k)
  have h2 : ((10 : Int) ^ k).natAbs = 10 ^ k := by
    simp [Int.natAbs_pow]
  rw [h2] at h1
  have h3 : ((m : Rat) / (10 ^ k : Int)) = (m : Rat) / 10 ^ k := by push_cast; ring
  rw [h3] at h1
  set d := ((m : Rat) / 10 ^ k).den with hd
  have h4 : d ∣ 10 ^ d := dvd_ten_pow_self h1
  have h5 : d ∣ 10 ^ minTenExp d := by
    refine minTenExpAux_dvd d d 0 ?_
    simpa using h4
  calc d ∣ 10 ^ minTenExp d := h5
  _ ∣ 10 ^ max (minTenExp d) 1 := Nat.pow_dvd_pow 10 (Nat.le_max_left _ _)

theorem pyFloat_digit_head (c : Char) (rest : List Char)
    (hc : c.isDigit = true) :
    pyFloat (c :: rest) = pyFloatBody (c :: rest) := by
  obtain ⟨-, -, -, hplus, hminus, -⟩ := isDigit_not_special hc
  simp only [pyFloat]
  split
  · rename_i r heq
    rw [List.cons.injEq] at heq
    exact absurd heq.1 hplus
  · rename_i r heq
    rw [List.cons.injEq] at heq
    exact absurd heq.1 hminus
  · rfl

theorem floatRepr_facts (q : Rat) (hq : DecRat q) :
    (∀ c ∈ floatRepr q, c.isDigit = true ∨ c = '-' ∨ c = '.')
    ∧ floatRepr q ≠ []
    ∧ pyInt (floatRepr q) = Option.none
    ∧ pyFloat (floatRepr q) = some q := by
  have hden0 : (q.den : Nat) ≠ 0 := q.den_nz
  set k := max (minTenExp q.den) 1 with hkdef
  have hk1 : 1 ≤ k := Nat.le_max_right _ _
  set m := q.num.natAbs * 10 ^ k / q.den with hmdef
  have hdvd : q.den ∣ 10 ^ k := decRat_den_dvd hq
  have hmul : m * q.den = q.num.natAbs * 10 ^ k :=
    Nat.div_mul_cancel (hdvd.mul_left _)
  set ds := natToChars m with hdsdef
  set pad := List.replicate (k + 1 - ds.length) '0' ++ ds with hpaddef
  have hpadlen : k + 1 ≤ pad.length := by
    rw [hpaddef]
    simp only [List.length_append, List.length_replicate]
    omega
  have hpaddig : ∀ c ∈ pad, c.isDigit = true := by
    intro c hc
    rcases List.mem_append.mp hc with h | h
    · rw [List.eq_of_mem_replicate h]
      decide
    · exact natToChars_digits m c h
  have hdTNpad : digitsToNat pad = m := by
    rw [hpaddef, digitsToNat_append, digitsToNat_replicate_zero,
      digitsToNat_natToChars]
    simp
  set ip := pad.take (pad.length - k) with hipdef
  set fp := pad.drop (pad.length - k) with hfpdef
  have hipdig : ∀ c ∈ ip, c.isDigit = true :=
    fun c hc => hpaddig c (List.take_subset _ _ hc)
  have hfpdig : ∀ c ∈ fp, c.isDigit = true :=
    fun c hc => hpaddig c (List.drop_subset _ _ hc)
  have hsplit : ip ++ fp = pad := List.take_append_drop _ _
  have hiplen : ip.length = pad.length - k := by
    rw [hipdef, List.length_take]
    omega
  have hfplen : fp.length = k := by
    rw [hfpdef, List.length_drop]
    omega
  have hip_ne : ip ≠ [] := by
    intro h
    have := hiplen
    rw [h] at this
    simp at this
    omega
  set body := ip ++ '.' :: fp with hbodydef
  have hbody_chars : ∀ c ∈ body, c.isDigit = true ∨ c = '-' ∨ c = '.' := by
    intro c hc
    rcases List.mem_append.mp hc with h | h
    · exact Or.inl (hipdig c h)
    · rcases List.mem_cons.mp h with h1 | h1
      · exact Or.inr (Or.inr h1)
      · exact Or.inl (hfpdig c h1)
  have hbody_not_all : body.all Char.isDigit = false := by
    rw [List.all_eq_false]
    refine ⟨'.', ?_, by decide⟩
    exact List.mem_append.mpr (Or.inr (List.mem_cons_self _ _))
  have hfr : floatRepr q = if q.num < 0 then '-' :: body else body := rfl
  -- value of the unsigned body
  have hbodyval : pyFloatBody body = some ((q.num.natAbs : Rat) / (q.den : Rat)) := by
    obtain ⟨htw, hdw⟩ :=
      takeWhile_all_append Char.isDigit ip '.' fp hipdig (by decide)
    obtain ⟨htw2, hdw2⟩ := takeWhile_all Char.isDigit fp hfpdig
    rw [← hbodydef] at htw hdw
    simp only [pyFloatBody, htw, hdw, htw2, hdw2]
    rw [if_neg (by intro hcon; exact hip_ne hcon.1)]
    simp only [pyFloatExp, Option.map_some']
    congr 1
    have hm_eq : digitsToNat ip * 10 ^ k + digitsToNat fp = m := by
      have := digitsToNat_append ip fp
      rw [hsplit, hfplen] at this
      rw [← this, hdTNpad]
    have h10 : ((10 : Rat) ^ k) ≠ 0 := by positivity
    have hcast : (m : Rat) * q.den = (q.num.natAbs : Rat) * 10 ^ k := by
      exact_mod_cast congrArg (Nat.cast : Nat → Rat) hmul
    have hdenQ : (q.den : Rat) ≠ 0 := by exact_mod_cast hden0
    rw [hfplen, zpow_zero, mul_one]
    have hmQ : (digitsToNat ip : Rat) + (digitsToNat fp : Rat) / 10 ^ k
        = (m : Rat) / 10 ^ k := by
      rw [← hm_eq]
      push_cast
      field_simp
    rw [hmQ]
    rw [div_eq_div_iff h10 hdenQ]
    linarith [hcast]
  have hbody_head : ∃ c rest, body = c :: rest ∧ c.isDigit = true := by
    match hip : ip, hip_ne with
    | c :: ip', _ =>
      refine ⟨c, ip' ++ '.' :: fp, by rw [hbodydef]; rfl, ?_⟩
      exact hipdig c (List.mem_cons_self _ _)
  refine ⟨?_, ?_, ?_, ?_⟩
  · -- characters
    rw [hfr]
    intro c hc
    by_cases hneg : q.num < 0
    · rw [if_pos hneg] at hc
      rcases List.mem_cons.mp hc with h | h
      · exact Or.inr (Or.inl h)
      · exact hbody_chars c h
    · rw [if_neg hneg] at hc
      exact hbody_chars c hc
  · -- nonempty
    rw [hfr]
    by_cases hneg : q.num < 0
    · simp [hneg]
    · rw [if_neg hneg]
      obtain ⟨c, rest, hcr, -⟩ := hbody_head
      rw [hcr]
      simp
  · -- pyInt fails
    rw [hfr]
    by_cases hneg : q.num < 0
    · rw [if_pos hneg]
      have : pyInt ('-' :: body)
          = (if body ≠ [] ∧ body.all Char.isDigit
              then some ((digitsToNat body : Nat) : Int) else Option.none).map
            (fun x => -x) := rfl
      rw [this, if_neg (by rw [hbody_not_all]; simp)]
      rfl
    · rw [if_neg hneg]
      obtain ⟨c, rest, hcr, hcd⟩ := hbody_head
      rw [hcr, pyInt_digit_head c rest hcd,
        if_neg (by rw [← hcr, hbody_not_all]; simp)]
  · -- pyFloat round-trips
    rw [hfr]
    by_cases hneg : q.num < 0
    · rw [if_pos hneg]
      have : pyFloat ('-' :: body) = (pyFloatBody body).map Neg.neg := rfl
      rw [this, hbodyval]
      simp only [Option.map_some']
      congr 1
      have h2 : ((q.num.natAbs : Nat) : Rat) = -(q.num : Rat) := by
        rw [Nat.cast_natAbs]
        exact_mod_cast abs_of_neg hneg
      rw [h2]
      rw [neg_div, neg_neg, Rat.num_div_den]
    · rw [if_neg hneg]
      obtain ⟨c, rest, hcr, hcd⟩ := hbody_head
      rw [hcr, pyFloat_digit_head c rest hcd, ← hcr, hbodyval]
      congr 1
      have h2 : ((q.num.natAbs : Nat) : Rat) = (q.num : Rat) := by
        rw [Nat.cast_natAbs]
        exact_mod_cast abs_of_nonneg (Int.not_lt.mp hneg)
      rw [h2, Rat.num_div_den]

/-- For every non-list well-formed value, `str` renders a clean,
paren-free token that re-classifies to the same value. -/
theorem render_atom_facts (v : Value) (hv : WF v) (hnl : ∀ xs, v ≠ .list xs) :
    render v ≠ [] ∧ wsFree (render v) ∧ parenFree (render v)
    ∧ atom (String.mk (render v)) = v := by
  cases hv with
  | int n =>
    obtain ⟨hws, hpf⟩ := numChars_free (intToChars n) (intToChars_chars n)
    refine ⟨?_, hws, hpf, ?_⟩
    · show intToChars n ≠ []
      unfold intToChars
      by_cases h : n < 0
      · simp [h]
      · rw [if_neg h]
        exact natToChars_ne_nil _
    · show atom (String.mk (intToChars n)) = .int n
      unfold atom
      show (match pyInt (intToChars n) with
            | some n => Value.int n
            | Option.none =>
              match pyFloat (intToChars n) with
              | some q => Value.float q
              | Option.none => Value.sym (String.mk (intToChars n))) = Value.int n
      rw [pyInt_intToChars]
  | float q hq =>
    obtain ⟨hchars, hne, hint, hfl⟩ := floatRepr_facts q hq
    obtain ⟨hws, hpf⟩ := numChars_free (floatRepr q) hchars
    refine ⟨hne, hws, hpf, ?_⟩
    show atom (String.mk (floatRepr q)) = .float q
    unfold atom
    show (match pyInt (floatRepr q) with
          | some n => Value.int n
          | Option.none =>
            match pyFloat (floatRepr q) with
            | some q => Value.float q
            | Option.none => Value.sym (String.mk (floatRepr q))) = Value.float q
    rw [hint, hfl]
  | sym s hne hws hpf hint hfl =>
    refine ⟨hne, hws, hpf, ?_⟩
    show atom (String.mk s.data) = .sym s
    unfold atom
    show (match pyInt s.data with
          | some n => Value.int n
          | Option.none =>
            match pyFloat s.data with
            | some q => Value.float q
            | Option.none => Value.sym (String.mk s.data)) = Value.sym s
    rw [hint, hfl]
  | list xs h => exact absurd rfl (hnl xs)

mutual
/-- The token sequence that `to_string` flattens a value to: what
`tokenize (to_string v)` returns (proved below). -/
def flatToks : Value → List (List Char)
  | .list xs => ['('] :: flatToksList xs ++ [[')']]
  | v => [render v]
  termination_by structural v => v

def flatToksList : List Value → List (List Char)
  | [] => []
  | x :: xs => flatToks x ++ flatToksList xs
  termination_by structural xs => xs
end

theorem mk_eq_iff (T : List Char) (u : String) :
    String.mk T = u ↔ T = u.data := by
  constructor
  · intro h
    rw [← h]
  · intro h
    cases u
    exact congrArg String.mk h

theorem flatToks_head (v : Value) (hv : WF v) :
    ∃ T0 Ts, flatToks v = T0 :: Ts ∧ ¬String.mk T0 = ")" := by
  cases hv with
  | list xs h =>
    refine ⟨['('], flatToksList xs ++ [[')']], rfl, ?_⟩
    rw [mk_eq_iff]
    simp
  | int n =>
    obtain ⟨hne, -, hpf, -⟩ := render_atom_facts _ (WF.int n) (by intro xs h; cases h)
    refine ⟨render (.int n), [], rfl, ?_⟩
    rw [mk_eq_iff]
    intro h
    exact ((hpf ')' (by rw [h]; exact List.mem_cons_self _ _)).2 rfl)
  | float q hq =>
    obtain ⟨hne, -, hpf, -⟩ :=
      render_atom_facts _ (WF.float q hq) (by intro xs h; cases h)
    refine ⟨render (.float q), [], rfl, ?_⟩
    rw [mk_eq_iff]
    intro h
    exact ((hpf ')' (by rw [h]; exact List.mem_cons_self _ _)).2 rfl)
  | sym s h1 h2 h3 h4 h5 =>
    obtain ⟨hne, -, hpf, -⟩ :=
      render_atom_facts _ (WF.sym s h1 h2 h3 h4 h5) (by intro xs h; cases h)
    refine ⟨render (.sym s), [], rfl, ?_⟩
    rw [mk_eq_iff]
    intro h
    exact ((hpf ')' (by rw [h]; exact List.mem_cons_self _ _)).2 rfl)

theorem flatToks_ne_nil (v : Value) : flatToks v ≠ [] := by
  cases v <;> simp [flatToks]

theorem parse_flat_atom (v : Value) (hv : WF v) (hnl : ∀ xs, v ≠ .list xs) :
    ∀ (rest : List String) (f : Nat),
      2 * (String.mk (render v) :: rest).length + 1 ≤ f →
      exprFromTokensF f (String.mk (render v) :: rest) = .ok (v, rest) := by
  intro rest f hb
  obtain ⟨hne, -, hpf, hatom⟩ := render_atom_facts v hv hnl
  obtain ⟨f', rfl⟩ : ∃ f', f = f' + 1 := ⟨f - 1, by omega⟩
  have h1 : ¬String.mk (render v) = "(" := by
    rw [mk_eq_iff]
    intro h
    exact (hpf '(' (by rw [h]; exact List.mem_cons_self _ _)).1 rfl
  have h2 : ¬String.mk (render v) = ")" := by
    rw [mk_eq_iff]
    intro h
    exact (hpf ')' (by rw [h]; exact List.mem_cons_self _ _)).2 rfl
  simp only [exprFromTokensF, if_neg h1, if_neg h2, hatom]

theorem parse_flat (v : Value) (hv : WF v) :
    ∀ (rest : List String) (f : Nat),
      2 * ((flatToks v).map String.mk ++ rest).length + 1 ≤ f →
      exprFromTokensF f ((flatToks v).map String.mk ++ rest) = .ok (v, rest) := by
  induction hv with
  | int n =>
    exact parse_flat_atom _ (WF.int n) (by intro xs h; cases h)
  | float q hq =>
    exact parse_flat_atom _ (WF.float q hq) (by intro xs h; cases h)
  | sym s h1 h2 h3 h4 h5 =>
    exact parse_flat_atom _ (WF.sym s h1 h2 h3 h4 h5) (by intro xs h; cases h)
  | list xs hxs ih =>
    have aux : ∀ ys : List Value,
        (∀ x ∈ ys, ∀ (rest : List String) (f : Nat),
          2 * ((flatToks x).map String.mk ++ rest).length + 1 ≤ f →
          exprFromTokensF f ((flatToks x).map String.mk ++ rest) = .ok (x, rest)) →
        (∀ x ∈ ys, WF x) →
        ∀ (rest : List String) (g : Nat),
          2 * ((flatToksList ys).map String.mk ++ ")" :: rest).length + 2 ≤ g →
          readListF g ((flatToksList ys).map String.mk ++ ")" :: rest)
            = .ok (ys, rest) := by
      intro ys
      induction ys with
      | nil =>
        intro _ _ rest g hg
        obtain ⟨g', rfl⟩ : ∃ g', g = g' + 1 := ⟨g - 1, by omega⟩
        simp [flatToksList, readListF]
      | cons x ys' ihy =>
        intro hIH hWF rest g hg
        have hmem : x ∈ x :: ys' := List.mem_cons_self _ _
        obtain ⟨T0, Ts, hT, hT0⟩ := flatToks_head x (hWF x hmem)
        have hflat : (flatToksList (x :: ys')).map String.mk ++ ")" :: rest
            = String.mk T0 :: ((Ts.map String.mk)
                ++ ((flatToksList ys').map String.mk ++ ")" :: rest)) := by
          show ((flatToks x ++ flatToksList ys').map String.mk) ++ ")" :: rest = _
          rw [hT]
          simp
        rw [hflat]
        obtain ⟨g', rfl⟩ : ∃ g', g = g' + 1 := ⟨g - 1, by omega⟩
        simp only [readListF, if_neg hT0]
        have hx : exprFromTokensF g' ((flatToks x).map String.mk
            ++ ((flatToksList ys').map String.mk ++ ")" :: rest))
            = .ok (x, (flatToksList ys').map String.mk ++ ")" :: rest) := by
          refine hIH x hmem _ g' ?_
          rw [hflat] at hg
          rw [hT]
          simp only [List.map_cons, List.map_append, List.length_cons,
            List.length_append, List.length_map] at hg ⊢
          omega
        have hx2 : String.mk T0 :: ((Ts.map String.mk)
            ++ ((flatToksList ys').map String.mk ++ ")" :: rest))
            = (flatToks x).map String.mk
              ++ ((flatToksList ys').map String.mk ++ ")" :: rest) := by
          rw [hT]
          simp
        rw [hx2, hx]
        simp only []
        have hys : readListF g' ((flatToksList ys').map String.mk ++ ")" :: rest)
            = .ok (ys', rest) := by
          refine ihy (fun u hu => hIH u (List.mem_cons_of_mem _ hu))
            (fun u hu => hWF u (List.mem_cons_of_mem _ hu)) rest g' ?_
          rw [hflat] at hg
          have hTne : (flatToks x).length = Ts.length + 1 := by
            rw [hT]
            simp
          simp only [List.length_cons, List.length_append, List.length_map] at hg ⊢
          omega
        simp [hys]
    intro rest f hb
    have hflat : (flatToks (Value.list xs)).map String.mk ++ rest
        = "(" :: ((flatToksList xs).map String.mk ++ ")" :: rest) := by
      show ((['('] :: flatToksList xs ++ [[')']]).map String.mk) ++ rest = _
      simp
    rw [hflat]
    obtain ⟨f', rfl⟩ : ∃ f', f = f' + 1 := ⟨f - 1, by omega⟩
    simp only [exprFromTokensF, if_pos rfl]
    have hread : readListF f' ((flatToksList xs).map String.mk ++ ")" :: rest)
        = .ok (xs, rest) := by
      refine aux xs ih hxs rest f' ?_
      rw [hflat] at hb
      simp only [List.length_cons, List.length_append, List.length_map] at hb ⊢
      omega
    simp [hread]

theorem splitWsAux_append_space (A : List Char) :
    ∀ (acc : List Char) (B : List Char),
      splitWsAux (A ++ ' ' :: B) acc = splitWsAux A acc ++ splitWsAux B [] := by
  induction A with
  | nil =>
    intro acc B
    simp [splitWsAux, show pyIsSpace ' ' = true from rfl]
  | cons c A ih =>
    intro acc B
    by_cases hsp : pyIsSpace c
    · simp only [List.cons_append, splitWsAux, if_pos hsp]
      rw [show A.append (' ' :: B) = A ++ ' ' :: B from rfl, ih [] B,
        List.append_assoc]
    · simp only [List.cons_append, splitWsAux, if_neg hsp]
      rw [show A.append (' ' :: B) = A ++ ' ' :: B from rfl, ih (c :: acc) B]

theorem splitWsAux_no_ws (A : List Char) :
    ∀ acc, A ≠ [] → wsFree A → splitWsAux A acc = [acc.reverse ++ A] := by
  induction A with
  | nil =>
    intro acc h _
    exact absurd rfl h
  | cons c A ih =>
    intro acc _ hws
    have hc : pyIsSpace c = false := hws c (List.mem_cons_self _ _)
    simp only [splitWsAux, hc, Bool.false_eq_true, if_false]
    by_cases hA : A = []
    · subst hA
      simp [splitWsAux]
    · rw [ih (c :: acc) hA (fun d hd => hws d (List.mem_cons_of_mem _ hd))]
      simp

theorem expand_parenFree_id (cs : List Char) (h : parenFree cs) :
    expand cs = cs := by
  induction cs with
  | nil => rfl
  | cons c cs ih =>
    rw [expand_cons, ih (fun d hd => h d (List.mem_cons_of_mem _ hd))]
    have hc := h c (List.mem_cons_self _ _)
    simp [expandChar, hc.1, hc.2]


theorem render_flat (v : Value) (hv : WF v) :
    tokenizeL (render v) = flatToks v := by
  induction hv with
  | int n =>
    obtain ⟨hne, hws, hpf, -⟩ :=
      render_atom_facts _ (WF.int n) (by intro xs h; cases h)
    show splitWsAux (expand (render (.int n))) [] = [render (.int n)]
    rw [expand_parenFree_id _ hpf, splitWsAux_no_ws _ [] hne hws]
    rfl
  | float q hq =>
    obtain ⟨hne, hws, hpf, -⟩ :=
      render_atom_facts _ (WF.float q hq) (by intro xs h; cases h)
    show splitWsAux (expand (render (.float q))) [] = [render (.float q)]
    rw [expand_parenFree_id _ hpf, splitWsAux_no_ws _ [] hne hws]
    rfl
  | sym s h1 h2 h3 h4 h5 =>
    obtain ⟨hne, hws, hpf, -⟩ :=
      render_atom_facts _ (WF.sym s h1 h2 h3 h4 h5) (by intro xs h; cases h)
    show splitWsAux (expand (render (.sym s))) [] = [render (.sym s)]
    rw [expand_parenFree_id _ hpf, splitWsAux_no_ws _ [] hne hws]
    rfl
  | list xs hxs ih =>
    have aux : ∀ ys : List Value,
        (∀ x ∈ ys, tokenizeL (render x) = flatToks x) →
        splitWsAux (expand (renderList ys)) [] = flatToksList ys := by
      intro ys
      induction ys with
      | nil =>
        intro _
        rfl
      | cons x ys' ihy =>
        intro hIH
        cases ys' with
        | nil =>
          show splitWsAux (expand (render x)) [] = flatToksList [x]
          have := hIH x (List.mem_cons_self _ _)
          show tokenizeL (render x) = flatToksList [x]
          rw [this]
          show flatToks x = flatToks x ++ []
          simp
        | cons y rest =>
          show splitWsAux (expand (render x ++ ' ' :: renderList (y :: rest))) []
            = flatToksList (x :: y :: rest)
          rw [show render x ++ ' ' :: renderList (y :: rest)
              = render x ++ [' '] ++ renderList (y :: rest) by simp]
          rw [expand_append, expand_append]
          rw [show expand [' '] = [' '] from rfl]
          rw [show expand (render x) ++ [' '] ++ expand (renderList (y :: rest))
              = expand (render x) ++ ' ' :: expand (renderList (y :: rest)) by simp]
          rw [splitWsAux_append_space]
          rw [ihy (fun u hu => hIH u (List.mem_cons_of_mem _ hu))]
          have hx := hIH x (List.mem_cons_self _ _)
          show tokenizeL (render x) ++ flatToksList (y :: rest)
            = flatToksList (x :: y :: rest)
          rw [hx]
          rfl
    show splitWsAux (expand ('(' :: renderList xs ++ [')'])) [] = _
    rw [show ('(' :: renderList xs ++ [')'])
        = '(' :: (renderList xs ++ [')']) by simp]
    rw [expand_cons, expand_append]
    rw [show expandChar '(' = [' ', '(', ' '] from rfl,
      show expand [')'] = [' ', ')', ' '] from rfl]
    show splitWsAux
      (' ' :: '(' :: ' ' :: (expand (renderList xs) ++ [' ', ')', ' '])) []
      = flatToks (.list xs)
    rw [show splitWsAux
        (' ' :: '(' :: ' ' :: (expand (renderList xs) ++ [' ', ')', ' '])) []
        = ['('] :: splitWsAux (expand (renderList xs) ++ [' ', ')', ' ']) []
        from rfl]
    rw [show (expand (renderList xs) ++ [' ', ')', ' '])
        = expand (renderList xs) ++ ' ' :: [')', ' '] from rfl]
    rw [splitWsAux_append_space]
    rw [aux xs ih]
    rfl

/-- C9: for every syntactically valid single expression `s` (every string
from which `read_one` after `tokenize` pops an Expression `e`),
`stringify(e)` re-tokenizes and re-parses to exactly the same Expression
tree `e`, consuming the whole output. -/
theorem c9_round_trip :
    ∀ (s : String) (e : Value) (rest : List String),
      exprFromTokens (tokenize s) = .ok (e, rest) →
      exprFromTokens (tokenize (to_string e)) = .ok (e, []) := by
  intro s e rest h
  have hcl : ∀ t ∈ tokenize s, CleanTok t := tokenize_clean s
  have hwf : WF e := (parser_WF _).1 (tokenize s) e rest hcl h
  have h1 : tokenize (to_string e) = (flatToks e).map String.mk := by
    show (tokenizeL (String.mk (render e)).data).map String.mk = _
    rw [show (String.mk (render e)).data = render e from rfl]
    rw [render_flat e hwf]
  rw [h1]
  have hnil : (flatToks e).map String.mk ++ ([] : List String)
      = (flatToks e).map String.mk := by simp
  have h2 := parse_flat e hwf []
    (2 * ((flatToks e).map String.mk).length + 1) (by rw [hnil])
  rw [hnil] at h2
  exact h2

/-- Witness for C9 at the concrete input `(+ 1 (2.5 a))`, whose
stringification re-parses to the same tree. -/
theorem c9_round_trip_witness :
    exprFromTokens (tokenize (to_string
        (.list [.sym "+", .int 1, .list [.float (5 / 2), .sym "a"]])))
      = .ok (.list [.sym "+", .int 1, .list [.float (5 / 2), .sym "a"]], []) :=
  c9_round_trip "(+ 1 (2.5 a))"
    (.list [.sym "+", .int 1, .list [.float (5 / 2), .sym "a"]]) []
    (by with_unfolding_all rfl)
